import Mathlib

/-!
Verification of the locally authored logic of the repository:
the restricted arithmetic-formula evaluator (`examples/tools/math_calculator.py`),
the regex math-expression detector (`examples/agent_patterns/input_guardrails_v0.py`)
and the math/normal text splitter (`examples/agent_patterns/input_guardrails_v1.py`).

Strings are modelled as `List Char`.  Numeric values are modelled as exact
rationals (`ℚ`); machine floating point is not modelled, so results that in
Python would be rounded floats are exact here.  The regex character classes
`\d` and `\s` are modelled by their ASCII meaning (decimal digits `0`-`9`,
and the whitespace characters stripped by `str.strip`); exotic non-ASCII
digit or space code points that Python's Unicode classes would also accept
are outside the model.
-/

namespace AgentsDemo

/-- ASCII decimal digit, the model of the regex class `\d`. -/
def isPyDigit (c : Char) : Bool := '0' ≤ c && c ≤ '9'

/-- Whitespace as stripped by Python and matched by `\s` (ASCII part):
space, tab, newline, carriage return, vertical tab, form feed. -/
def isPySpace (c : Char) : Bool :=
  c = ' ' || c = '\t' || c = '\n' || c = '\r' || c = Char.ofNat 11 || c = Char.ofNat 12

/-- One of the four arithmetic operator characters `+ - * /`. -/
def isOpChar (c : Char) : Bool := c = '+' || c = '-' || c = '*' || c = '/'

/-- ASCII letter, the class `[a-zA-Z]` of the guardrail regex. -/
def isAsciiLetter (c : Char) : Bool :=
  ('a' ≤ c && c ≤ 'z') || ('A' ≤ c && c ≤ 'Z')

/-- The class `[\d\+\-\*/\s]` appearing after `=` in the assignment
alternative of the math-expression regex. -/
def isMathClass (c : Char) : Bool := isPyDigit c || isOpChar c || isPySpace c

/-- The validator class `[\d\+\-\*/\(\)\.\s]` of `evaluate_formula`
(`math_calculator.py` line 75): digits, the four operators, parentheses,
the decimal point and whitespace. -/
def allowedChar (c : Char) : Bool :=
  isPyDigit c || isOpChar c || c = '(' || c = ')' || c = '.' || isPySpace c

/-- Remove trailing whitespace (the right half of Python's `str.strip`). -/
def rstrip (l : List Char) : List Char := (l.reverse.dropWhile isPySpace).reverse

/-- Python's `str.strip()`: drop leading and trailing whitespace. -/
def pyStrip (l : List Char) : List Char := rstrip (l.dropWhile isPySpace)

/-!
The math-expression regex of the guardrail examples,
`(\d+\s*[\+\-\*/]\s*\d+)|([a-zA-Z]\s*=\s*[\d\+\-\*/\s]+)`
(`input_guardrails_v0.py` line 71; `input_guardrails_v1.py` line 103 writes
the same two alternatives inside a single group, which changes captures but
not match spans).  Because the two alternatives begin with disjoint
character classes and every quantified sub-part is followed by a character
it cannot match, Python's backtracking search at a fixed start position is
equivalent to the deterministic maximal-munch scan implemented here:
each call returns the matched segment together with the unconsumed rest.
-/
/-- Match of the alternative `\d+\s*[\+\-\*/]\s*\d+` at the start of `cs`:
one or more digits, optional whitespace, one operator, optional whitespace,
one or more digits, each part taken greedily. -/
def matchA (cs : List Char) : Option (List Char × List Char) :=
  let d1 := cs.takeWhile isPyDigit
  let r1 := cs.dropWhile isPyDigit
  if d1.isEmpty then none
  else
    let w1 := r1.takeWhile isPySpace
    let r2 := r1.dropWhile isPySpace
    match r2 with
    | [] => none
    | c :: r3 =>
      if isOpChar c then
        let w2 := r3.takeWhile isPySpace
        let r4 := r3.dropWhile isPySpace
        let d2 := r4.takeWhile isPyDigit
        if d2.isEmpty then none
        else some (d1 ++ w1 ++ c :: (w2 ++ d2), r4.dropWhile isPyDigit)
      else none

/-- Match of the alternative `[a-zA-Z]\s*=\s*[\d\+\-\*/\s]+` at the start of
`cs`: a letter, optional whitespace, `=`, then at least one character of the
class `[\d\+\-\*/\s]`.  Since `\s` is contained in that class, the
backtracking combination `\s*[\d\+\-\*/\s]+` after `=` consumes exactly the
maximal run of class characters, and fails when that run is empty. -/
def matchB (cs : List Char) : Option (List Char × List Char) :=
  match cs with
  | [] => none
  | c :: r1 =>
    if isAsciiLetter c then
      let w1 := r1.takeWhile isPySpace
      let r2 := r1.dropWhile isPySpace
      match r2 with
      | '=' :: r3 =>
        let k := r3.takeWhile isMathClass
        if k.isEmpty then none
        else some (c :: (w1 ++ '=' :: k), r3.dropWhile isMathClass)
      | _ => none
    else none

/-- Attempt of the whole alternation at the start of `cs`; the alternatives
are tried in their textual order, as Python does. -/
def tryMatch (cs : List Char) : Option (List Char × List Char) :=
  (matchA cs).orElse fun _ => matchB cs

/-- `contains_math_expression` of `input_guardrails_v0.py` (lines 69-72):
`bool(re.search(math_pattern, text))`, i.e. scan the positions of `text`
from the left and report whether the pattern matches at any of them. -/
def contains_math_expression : List Char → Bool
  | [] => false
  | c :: cs => (tryMatch (c :: cs)).isSome || contains_math_expression cs

/-- Prepend the pending gap (held in reverse) as a non-math piece, unless it
is empty. -/
def closeGap (gapRev : List Char) (l : List (Bool × List Char)) :
    List (Bool × List Char) :=
  if gapRev = [] then l else (false, gapRev.reverse) :: l

/-- The walk of `re.finditer` over the text: alternating pieces
`(false, gap)` and `(true, match)`, in source order, whose concatenation is
the whole text.  Gaps between consecutive matches may be absent; `(true, _)`
pieces are exactly the non-overlapping leftmost-first matches.  The `fuel`
argument only makes the recursion structural (each step either advances one
position or jumps past a non-empty match, so any `fuel ≥ cs.length` gives
the same result, see `chunksF_congr`); the zero-fuel fallback is never
reached from `chunksRun`. -/
def chunksF : Nat → List Char → List Char → List (Bool × List Char)
  | _, gapRev, [] => closeGap gapRev []
  | 0, gapRev, c :: cs' => closeGap (cs'.reverse ++ c :: gapRev) []
  | fuel + 1, gapRev, c :: cs' =>
    match tryMatch (c :: cs') with
    | some (m, r) => closeGap gapRev ((true, m) :: chunksF fuel [] r)
    | none => chunksF fuel (c :: gapRev) cs'

/-- The finditer walk with the fuel pinned to the input length. -/
def chunksRun (gapRev : List Char) (cs : List Char) : List (Bool × List Char) :=
  chunksF cs.length gapRev cs

/-- All pieces of the text, from position 0. -/
def mathChunks (text : List Char) : List (Bool × List Char) := chunksRun [] text

/-- The two segment kinds of the splitter: the strings `"normal"` and
`"math"` used in the `type` field of its result dictionaries. -/
inductive SegKind where
  | normal
  | math
deriving DecidableEq

/-- One element of the splitter's result list: a `type`/`content` pair. -/
structure Segment where
  kind : SegKind
  content : List Char
deriving DecidableEq

/-- The per-piece emission step of `split_input_by_math_expressions`
(lines 109-123): strip the piece; skip it when the stripped content is
empty, otherwise emit it tagged with its kind. -/
def emitSeg (p : Bool × List Char) : Option Segment :=
  let t := pyStrip p.2
  if t = [] then none
  else some ⟨if p.1 then SegKind.math else SegKind.normal, t⟩

/-- `split_input_by_math_expressions` of `input_guardrails_v1.py`
(lines 97-124): walk the finditer matches, emitting the stripped gap before
each match (if non-empty), the stripped match (if non-empty), and the
stripped trailing gap (if non-empty). -/
def split_input_by_math_expressions (text : List Char) : List Segment :=
  (mathChunks text).filterMap emitSeg

/-- The reassembly described by the idempotence property: the contents of a
segmentation, concatenated in order with single spaces between them. -/
def rejoinContents (l : List Segment) : List Char :=
  List.intercalate [' '] (l.map Segment.content)

/-!
The formula evaluator of `examples/tools/math_calculator.py`.

`evaluate_formula` strips the formula, whitelist-checks it with
`re.match(r'^[\d\+\-\*/\(\)\.\s]+$', formula)` (at least one character, all
from the allowed class), and then hands it to Python's `eval`, converting
the result with `float` and converting every exception into the single
`ValueError("Error evaluating formula: ...")`.

`eval` itself is Python's builtin; restricted to the whitelisted character
set it is the standard expression grammar over numeric literals,
parentheses, unary `+`/`-`, and the binary operators `+ - * / // **`
(the doubled-character operators are reachable through the whitelist too):

    expression := term ((PLUS | MINUS) term)*          left associative
    term       := factor ((STAR | SLASH | DSLASH) factor)*   left associative
    factor     := (PLUS | MINUS) factor | power
    power      := atom (DSTAR factor)?                 right associative
    atom       := NUMBER | LPAR expression RPAR

Numbers are modelled as exact rationals; Python's float rounding, float
overflow at the final `float(result)` conversion, and float/complex results
of `**` with a non-integer exponent are not representable here — the last
is mapped to the distinguished error `badPow`, and none of the verified
claims exercises it.  `eval("()")` (the empty tuple, whose later `float`
conversion raises `TypeError`) is likewise folded into the syntax-error
case: either way `evaluate_formula` surfaces it as its single catch-all
evaluation error.
-/
/-- Token set of the whitelisted expression fragment. -/
inductive Tok where
  | num (q : ℚ)
  | plus | minus | star | slash | dstar | dslash | lpar | rpar
deriving DecidableEq

/-- Numeric value of an ASCII digit. -/
def digitVal (c : Char) : ℕ := c.toNat - 48

/-- Value of a big-endian ASCII digit string. -/
def digitsToNat (l : List Char) : ℕ := l.foldl (fun a c => 10 * a + digitVal c) 0

/-- Lex one numeric literal at the start of `cs`: `digits`, `digits.digits`,
`digits.` or `.digits`.  A lone `.` fails, and a decimal integer literal
with a leading zero and a non-zero digit (like `007`) is a Python syntax
error. -/
def lexNum (cs : List Char) : Option (ℚ × List Char) :=
  let d1 := cs.takeWhile isPyDigit
  let r1 := cs.dropWhile isPyDigit
  match r1 with
  | '.' :: r2 =>
    let d2 := r2.takeWhile isPyDigit
    let r3 := r2.dropWhile isPyDigit
    if d1.isEmpty && d2.isEmpty then none
    else some ((digitsToNat d1 : ℚ) + (digitsToNat d2 : ℚ) / (10 : ℚ) ^ d2.length, r3)
  | _ =>
    if d1.isEmpty then none
    else if d1.headI = '0' && d1.any (fun c => c ≠ '0') then none
    else some ((digitsToNat d1 : ℚ), r1)

/-- The three characters the CPython tokenizer always skips between the
tokens of a (stripped, single-line) expression: space, tab and form feed. -/
def isBlank (c : Char) : Bool := c = ' ' || c = '\t' || c = Char.ofNat 12

/-- The CPython tokenizer restricted to the whitelisted characters, applied
to an expression that has already been stripped of leading and trailing
whitespace (as `evaluate_formula` does before calling `eval`): space, tab
and form feed are skipped everywhere; a newline or carriage return is a
line break, legal only inside parentheses (`d` tracks the parenthesis
depth) and a `SyntaxError` outside them; a vertical tab is always a
`SyntaxError`; `**` and `//` are single tokens; numeric literals are
maximal.  `none` is a tokenization error (Python `SyntaxError`).
The `fuel` argument only makes the recursion structural (every step
consumes at least one character, so any `fuel ≥ cs.length` gives the same
result, see `tokenizeF_congr`); the zero-fuel fallback is never reached
from `tokenize`. -/
def tokenizeF : Nat → Nat → List Char → Option (List Tok)
  | _, _, [] => some []
  | 0, _, _ :: _ => none
  | fuel + 1, d, c :: cs' =>
    if isBlank c then tokenizeF fuel d cs'
    else if c = '\n' || c = '\r' then
      if 0 < d then tokenizeF fuel d cs' else none
    else if c = '+' then (tokenizeF fuel d cs').map (Tok.plus :: ·)
    else if c = '-' then (tokenizeF fuel d cs').map (Tok.minus :: ·)
    else if c = '*' then
      if cs'.head? = some '*' then (tokenizeF fuel d cs'.tail).map (Tok.dstar :: ·)
      else (tokenizeF fuel d cs').map (Tok.star :: ·)
    else if c = '/' then
      if cs'.head? = some '/' then (tokenizeF fuel d cs'.tail).map (Tok.dslash :: ·)
      else (tokenizeF fuel d cs').map (Tok.slash :: ·)
    else if c = '(' then (tokenizeF fuel (d + 1) cs').map (Tok.lpar :: ·)
    else if c = ')' then (tokenizeF fuel (d - 1) cs').map (Tok.rpar :: ·)
    else if isPyDigit c || c = '.' then
      match lexNum (c :: cs') with
      | some (q, rest) => (tokenizeF fuel d rest).map (Tok.num q :: ·)
      | none => none
    else none

/-- The tokenizer at parenthesis depth `d` with the fuel pinned to the
input length. -/
def tokenizeD (d : Nat) (cs : List Char) : Option (List Tok) :=
  tokenizeF cs.length d cs

/-- The tokenizer on a whole stripped expression: depth 0. -/
def tokenize (cs : List Char) : Option (List Tok) := tokenizeD 0 cs

/-- Unary operators of the Python expression grammar. -/
inductive UOp where
  | pos | neg
deriving DecidableEq

/-- Binary operators reachable through the whitelist:
`+ - * /` plus floor division `//` and exponentiation `**`. -/
inductive BOp where
  | add | sub | mul | div | fdiv | pow
deriving DecidableEq

/-- Abstract expression tree produced by Python's compiler for the
whitelisted fragment. -/
inductive PExpr where
  | num (q : ℚ)
  | un (o : UOp) (e : PExpr)
  | bin (o : BOp) (l r : PExpr)
deriving DecidableEq

/-- The recursive-descent parser for the grammar above, written as a
single function over a mode tag so that the recursion is structural in the
`fuel` argument (and therefore computable by the kernel).  `acc` is the
tree accumulated so far; it is only consulted by the two loop modes
`termLoop`/`exprLoop`, which implement the left-associative iteration of
`term` and `expression`.  Running out of fuel fails the parse; every
recursive call decreases the fuel by one and at least every eighth call
consumes a token, so `8 * ts.length + 8` fuel is always sufficient (the
round-trip lemmas below give the precise bounds used). -/
inductive PMode where
  | atom | pow | factor | termLoop | term | exprLoop | expr
deriving DecidableEq

def parseF : Nat → PMode → PExpr → List Tok → Option (PExpr × List Tok)
  | 0, _, _, _ => none
  | fuel + 1, PMode.atom, _, ts =>
    match ts with
    | Tok.num q :: r => some (PExpr.num q, r)
    | Tok.lpar :: r =>
      match parseF fuel PMode.expr (PExpr.num 0) r with
      | some (e, Tok.rpar :: r3) => some (e, r3)
      | _ => none
    | _ => none
  | fuel + 1, PMode.pow, _, ts =>
    match parseF fuel PMode.atom (PExpr.num 0) ts with
    | some (a, Tok.dstar :: r2) =>
      match parseF fuel PMode.factor (PExpr.num 0) r2 with
      | some (e, r3) => some (PExpr.bin BOp.pow a e, r3)
      | none => none
    | other => other
  | fuel + 1, PMode.factor, _, ts =>
    match ts with
    | Tok.plus :: r =>
      match parseF fuel PMode.factor (PExpr.num 0) r with
      | some (e, r2) => some (PExpr.un UOp.pos e, r2)
      | none => none
    | Tok.minus :: r =>
      match parseF fuel PMode.factor (PExpr.num 0) r with
      | some (e, r2) => some (PExpr.un UOp.neg e, r2)
      | none => none
    | _ => parseF fuel PMode.pow (PExpr.num 0) ts
  | fuel + 1, PMode.termLoop, acc, ts =>
    match ts with
    | Tok.star :: r =>
      match parseF fuel PMode.factor (PExpr.num 0) r with
      | some (f, r2) => parseF fuel PMode.termLoop (PExpr.bin BOp.mul acc f) r2
      | none => none
    | Tok.slash :: r =>
      match parseF fuel PMode.factor (PExpr.num 0) r with
      | some (f, r2) => parseF fuel PMode.termLoop (PExpr.bin BOp.div acc f) r2
      | none => none
    | Tok.dslash :: r =>
      match parseF fuel PMode.factor (PExpr.num 0) r with
      | some (f, r2) => parseF fuel PMode.termLoop (PExpr.bin BOp.fdiv acc f) r2
      | none => none
    | _ => some (acc, ts)
  | fuel + 1, PMode.term, _, ts =>
    match parseF fuel PMode.factor (PExpr.num 0) ts with
    | some (f, r) => parseF fuel PMode.termLoop f r
    | none => none
  | fuel + 1, PMode.exprLoop, acc, ts =>
    match ts with
    | Tok.plus :: r =>
      match parseF fuel PMode.term (PExpr.num 0) r with
      | some (t, r2) => parseF fuel PMode.exprLoop (PExpr.bin BOp.add acc t) r2
      | none => none
    | Tok.minus :: r =>
      match parseF fuel PMode.term (PExpr.num 0) r with
      | some (t, r2) => parseF fuel PMode.exprLoop (PExpr.bin BOp.sub acc t) r2
      | none => none
    | _ => some (acc, ts)
  | fuel + 1, PMode.expr, _, ts =>
    match parseF fuel PMode.term (PExpr.num 0) ts with
    | some (t, r) => parseF fuel PMode.exprLoop t r
    | none => none

/-- A full parse: run the expression production with ample fuel; the whole
token list must be consumed. -/
def pyParse (ts : List Tok) : Option PExpr :=
  match parseF (8 * ts.length + 8) PMode.expr (PExpr.num 0) ts with
  | some (e, []) => some e
  | _ => none

/-- The failure modes of `eval` on a whitelisted formula: a Python
`SyntaxError` (`synErr`), a `ZeroDivisionError` from `/` or `//` or
`0 ** negative` (`zeroDiv`), and the stand-in `badPow` for `**` with a
non-integer exponent, whose float/complex result exact arithmetic cannot
represent. -/
inductive PyErr where
  | synErr | zeroDiv | badPow
deriving DecidableEq

/-- Evaluation of a parsed expression tree, exactly as Python runs the
compiled expression: `/` is true division, `//` is floor division, both
raising `ZeroDivisionError` on a zero divisor; `**` with an integer
exponent is integer power (`0 ** negative` raises `ZeroDivisionError`). -/
def PExpr.val : PExpr → Except PyErr ℚ
  | PExpr.num q => Except.ok q
  | PExpr.un o e => do
    let v ← PExpr.val e
    match o with
    | UOp.pos => pure v
    | UOp.neg => pure (-v)
  | PExpr.bin o l r => do
    let a ← PExpr.val l
    let b ← PExpr.val r
    match o with
    | BOp.add => pure (a + b)
    | BOp.sub => pure (a - b)
    | BOp.mul => pure (a * b)
    | BOp.div => if b = 0 then Except.error PyErr.zeroDiv else pure (a / b)
    | BOp.fdiv => if b = 0 then Except.error PyErr.zeroDiv else pure (⌊a / b⌋ : ℤ)
    | BOp.pow =>
      if b.den = 1 then
        if a = 0 ∧ b.num < 0 then Except.error PyErr.zeroDiv
        else pure (a ^ b.num)
      else Except.error PyErr.badPow

/-- Python's `eval` on a whitelisted formula: tokenize, parse the whole
input, evaluate. -/
def pyEval (cs : List Char) : Except PyErr ℚ :=
  match tokenize cs with
  | none => Except.error PyErr.synErr
  | some ts =>
    match pyParse ts with
    | none => Except.error PyErr.synErr
    | some e => PExpr.val e

/-- The two error exits of `evaluate_formula`:
`ValueError("Formula contains invalid characters")` from the whitelist
check, and the catch-all
`ValueError(f"Error evaluating formula: ...")` wrapping any exception of
`eval`/`float`, tagged here with the wrapped failure mode. -/
inductive FormulaError where
  | invalidChars
  | evalErr (e : PyErr)
deriving DecidableEq

/-- The whitelist check of `evaluate_formula` (`math_calculator.py`
lines 69-76), the spec's Expression Validator: strip, then
`re.match(r'^[\d\+\-\*/\(\)\.\s]+$', formula)` — at least one character
(the `+` quantifier), all from the allowed class. -/
def formula_whitelist_ok (formula : List Char) : Bool :=
  let f := pyStrip formula
  !f.isEmpty && f.all allowedChar

/-- `evaluate_formula` of `math_calculator.py` (lines 55-84): strip the
formula; whitelist-check it, raising
`ValueError("Formula contains invalid characters")` on failure; then
evaluate with `eval`, wrapping any exception into
`ValueError("Error evaluating formula: ...")`.  The final `float(result)`
conversion is the identity in the exact-arithmetic model. -/
def evaluate_formula (formula : List Char) : Except FormulaError ℚ :=
  if formula_whitelist_ok formula then
    match pyEval (pyStrip formula) with
    | Except.ok v => Except.ok v
    | Except.error e => Except.error (FormulaError.evalErr e)
  else Except.error FormulaError.invalidChars

/-- The `divide` tool of `math_calculator.py` (lines 44-52): raise
`ValueError("Cannot divide by zero")` when the denominator is zero, before
dividing; otherwise return the quotient. -/
def divide (a b : ℚ) : Except String ℚ :=
  if b = 0 then Except.error "Cannot divide by zero" else Except.ok (a / b)

/-- The sample guardrail input `What's the capital of California?` from the
sources (the apostrophe is spelled as its code point). -/
def californiaQuestion : List Char :=
  "What".data ++ [Char.ofNat 39] ++ "s the capital of California?".data

/-- The sample guardrail input `Can you help me solve for x: 2x + 5 = 11`
from the sources. -/
def mathHomeworkQuestion : List Char :=
  "Can you help me solve for x: 2x + 5 = 11".data

/-!
### The conventional arithmetic expressions of the specification

Modelled from the spec: "a standard arithmetic expression over `+ - * /`
with conventional operator precedence (`*`/`/` bind tighter than `+`/`-`)
and parenthetical grouping, left-to-right associativity for same-precedence
operators", with "numeric literals parse as floating point" (decimal
literals, modelled as the exact rationals they denote).  `AExpr` is the
abstract form of such an expression, `AExpr.value` its conventional value
(undefined on division by zero), and the `SpellE`/`SpellT`/`SpellF`
relation below enumerates its concrete spellings: every decimal-literal
spelling of every number, any amount of inter-token blank space, and
arbitrarily many redundant parentheses, with binary operators placed
exactly as the conventional unambiguous grammar
(`expr := expr addop term | term`, `term := term mulop factor | factor`,
`factor := literal | ( expr )`) permits, which is what conventional
precedence, grouping and left-to-right associativity mean.  Inter-token
whitespace is blank space (space, tab, form feed), the whitespace CPython
accepts between expression tokens unconditionally; line breaks, which
CPython accepts only inside parentheses, are left out of the spelling
relation.
-/
/-- The four operators of the specified expression language. -/
inductive AOp where
  | add | sub | mul | div
deriving DecidableEq

/-- Conventional arithmetic expressions over the four operators with
decimal (exact-rational) literals. -/
inductive AExpr where
  | lit (q : ℚ)
  | bin (o : AOp) (l r : AExpr)
deriving DecidableEq

/-- The conventional arithmetic value (undefined on division by zero). -/
def AExpr.value : AExpr → Option ℚ
  | AExpr.lit n => some n
  | AExpr.bin o l r => do
    let a ← AExpr.value l
    let b ← AExpr.value r
    match o with
    | AOp.add => some (a + b)
    | AOp.sub => some (a - b)
    | AOp.mul => some (a * b)
    | AOp.div => if b = 0 then none else some (a / b)

/-- The decimal literals and their values: a digit string (with Python's
ban on a leading zero before a non-zero digit), or an integer part and a
fractional part around a decimal point (either part may be empty, not
both; leading zeros are legal here, as in Python float literals). -/
inductive DecLit : List Char → ℚ → Prop where
  | int : ∀ d : List Char, d ≠ [] → (∀ c ∈ d, isPyDigit c = true) →
      (d.headI = '0' → ∀ c ∈ d, c = '0') →
      DecLit d (digitsToNat d : ℚ)
  | dec : ∀ d1 d2 : List Char, (d1 ≠ [] ∨ d2 ≠ []) →
      (∀ c ∈ d1, isPyDigit c = true) → (∀ c ∈ d2, isPyDigit c = true) →
      DecLit (d1 ++ '.' :: d2)
        ((digitsToNat d1 : ℚ) + (digitsToNat d2 : ℚ) / (10 : ℚ) ^ d2.length)

/-- Precedence level: additive operators are 0, multiplicative are 1. -/
def opLevel : AOp → Nat
  | AOp.add => 0
  | AOp.sub => 0
  | AOp.mul => 1
  | AOp.div => 1

/-- The spelling of each operator. -/
def opChar4 : AOp → Char
  | AOp.add => '+'
  | AOp.sub => '-'
  | AOp.mul => '*'
  | AOp.div => '/'

/-- The token of each operator. -/
def opTok : AOp → Tok
  | AOp.add => Tok.plus
  | AOp.sub => Tok.minus
  | AOp.mul => Tok.star
  | AOp.div => Tok.slash

/-- The Python binary operator corresponding to each spec operator. -/
def bopOf : AOp → BOp
  | AOp.add => BOp.add
  | AOp.sub => BOp.sub
  | AOp.mul => BOp.mul
  | AOp.div => BOp.div

/-- The tree Python's compiler must produce for a spelling of an
`AExpr`. -/
def astOf : AExpr → PExpr
  | AExpr.lit n => PExpr.num n
  | AExpr.bin o l r => PExpr.bin (bopOf o) (astOf l) (astOf r)

/-- Structural size of an expression. -/
def AExpr.size : AExpr → Nat
  | AExpr.lit _ => 1
  | AExpr.bin _ l r => AExpr.size l + AExpr.size r + 1

/-!
The concrete spellings of a conventional arithmetic expression, by
grammar position (`SpellE` expression, `SpellT` term, `SpellF` factor),
written from the spec: the conventional unambiguous grammar, decimal
literals, blank space freely around every factor, and redundant
parentheses around any expression.
-/
mutual
inductive SpellF : AExpr → List Char → Prop where
  | lit : ∀ (q : ℚ) (s : List Char), DecLit s q → SpellF (AExpr.lit q) s
  | paren : ∀ (e : AExpr) (s : List Char), SpellE e s →
      SpellF e ('(' :: (s ++ [')']))
  | padL : ∀ (e : AExpr) (c : Char) (s : List Char), isBlank c = true →
      SpellF e s → SpellF e (c :: s)
  | padR : ∀ (e : AExpr) (c : Char) (s : List Char), isBlank c = true →
      SpellF e s → SpellF e (s ++ [c])

inductive SpellT : AExpr → List Char → Prop where
  | fac : ∀ (e : AExpr) (s : List Char), SpellF e s → SpellT e s
  | bin : ∀ (o : AOp) (l r : AExpr) (s1 s2 : List Char), opLevel o = 1 →
      SpellT l s1 → SpellF r s2 →
      SpellT (AExpr.bin o l r) (s1 ++ opChar4 o :: s2)

inductive SpellE : AExpr → List Char → Prop where
  | term : ∀ (e : AExpr) (s : List Char), SpellT e s → SpellE e s
  | bin : ∀ (o : AOp) (l r : AExpr) (s1 s2 : List Char), opLevel o = 0 →
      SpellE l s1 → SpellT r s2 →
      SpellE (AExpr.bin o l r) (s1 ++ opChar4 o :: s2)
end

/-!
Token-level image of the spelling grammar: the token lists the tokenizer
must produce for the spellings of each grammar position.
-/
mutual
inductive TSpellF : AExpr → List Tok → Prop where
  | lit : ∀ q : ℚ, TSpellF (AExpr.lit q) [Tok.num q]
  | paren : ∀ (e : AExpr) (ts : List Tok), TSpellE e ts →
      TSpellF e (Tok.lpar :: (ts ++ [Tok.rpar]))

inductive TSpellT : AExpr → List Tok → Prop where
  | fac : ∀ (e : AExpr) (ts : List Tok), TSpellF e ts → TSpellT e ts
  | bin : ∀ (o : AOp) (l r : AExpr) (ts1 ts2 : List Tok), opLevel o = 1 →
      TSpellT l ts1 → TSpellF r ts2 →
      TSpellT (AExpr.bin o l r) (ts1 ++ opTok o :: ts2)

inductive TSpellE : AExpr → List Tok → Prop where
  | term : ∀ (e : AExpr) (ts : List Tok), TSpellT e ts → TSpellE e ts
  | bin : ∀ (o : AOp) (l r : AExpr) (ts1 ts2 : List Tok), opLevel o = 0 →
      TSpellE l ts1 → TSpellT r ts2 →
      TSpellE (AExpr.bin o l r) (ts1 ++ opTok o :: ts2)
end

/-- The tokens of a left-spine tail: each step contributes its operator
token followed by the tokens of its right operand. -/
def spineToks (s : List (AOp × AExpr × List Tok)) : List Tok :=
  (s.map (fun x => opTok x.1 :: x.2.2)).flatten

/-- The expression built back from a left-spine head and tail. -/
def spineExpr (h : AExpr) (s : List (AOp × AExpr × List Tok)) : AExpr :=
  s.foldl (fun acc x => AExpr.bin x.1 acc x.2.1) h

/-- The left-associative tree built by a parsing loop over a spine tail. -/
def spineFold (h : PExpr) (s : List (AOp × AExpr × List Tok)) : PExpr :=
  s.foldl (fun acc x => PExpr.bin (bopOf x.1) acc (astOf x.2.1)) h

/-- What a spelled fragment contributes to tokenization: appending it in
front of any `rest` that cannot extend its last token prepends its token
list to the tokenization of `rest`, at every parenthesis depth. -/
def LexOk (s : List Char) (ts : List Tok) : Prop :=
  ∀ (d : Nat) (rest : List Char),
    (∀ c, rest.head? = some c → isOpChar c = true ∨ c = ')' ∨ isBlank c = true) →
    tokenizeD d (s ++ rest) = (tokenizeD d rest).map (ts ++ ·)

theorem matchA_spec {cs m r : List Char} (h : matchA cs = some (m, r)) :
    cs = m ++ r ∧ ∃ c t, m = c :: t ∧ isPyDigit c = true := by
  unfold matchA at h
  simp only [List.isEmpty_iff] at h
  split at h
  · exact absurd h (by simp)
  · split at h
    · exact absurd h (by simp)
    · rename_i hd1 r2c c r3 hr2
      split at h
      · split at h
        · exact absurd h (by simp)
        · rename_i hop hd2
          simp only [Option.some.injEq, Prod.mk.injEq] at h
          obtain ⟨hm, hr⟩ := h
          constructor
          · subst hm hr
            simp only [List.append_assoc, List.cons_append]
            rw [List.takeWhile_append_dropWhile isPyDigit (r3.dropWhile isPySpace),
              List.takeWhile_append_dropWhile isPySpace r3, ← hr2,
              List.takeWhile_append_dropWhile isPySpace (cs.dropWhile isPyDigit),
              List.takeWhile_append_dropWhile isPyDigit cs]
          · subst hm
            rcases e : cs.takeWhile isPyDigit with _ | ⟨c0, t0⟩
            · exact absurd e hd1
            · have hc0 : isPyDigit c0 = true :=
                List.mem_takeWhile_imp (by rw [e]; exact List.mem_cons_self c0 t0)
              refine ⟨c0, t0 ++ (cs.dropWhile isPyDigit).takeWhile isPySpace ++
                c :: (r3.takeWhile isPySpace ++
                  (r3.dropWhile isPySpace).takeWhile isPyDigit), ?_, hc0⟩
              simp
      · exact absurd h (by simp)

theorem matchB_spec {cs m r : List Char} (h : matchB cs = some (m, r)) :
    cs = m ++ r ∧ ∃ c t, m = c :: t ∧ isAsciiLetter c = true := by
  unfold matchB at h
  split at h
  · exact absurd h (by simp)
  · rename_i c r1
    split at h
    · rename_i hlet
      simp only [List.isEmpty_iff] at h
      split at h
      · rename_i r3 hr2
        split at h
        · exact absurd h (by simp)
        · rename_i hk
          simp only [Option.some.injEq, Prod.mk.injEq] at h
          obtain ⟨hm, hr⟩ := h
          refine ⟨?_, c, _, hm.symm, hlet⟩
          subst hm hr
          simp only [List.cons_append, List.append_assoc, List.cons.injEq, true_and]
          rw [List.takeWhile_append_dropWhile isMathClass r3, ← hr2,
            List.takeWhile_append_dropWhile isPySpace r1]
      · exact absurd h (by simp)
    · exact absurd h (by simp)

theorem tryMatch_spec {cs m r : List Char} (h : tryMatch cs = some (m, r)) :
    cs = m ++ r ∧ ∃ c t, m = c :: t ∧ (isPyDigit c = true ∨ isAsciiLetter c = true) := by
  unfold tryMatch at h
  rcases ha : matchA cs with _ | p
  · rw [ha] at h
    simp only [Option.orElse, Option.none_orElse] at h
    obtain ⟨h1, c, t, h2, h3⟩ := matchB_spec h
    exact ⟨h1, c, t, h2, Or.inr h3⟩
  · rw [ha] at h
    simp only [Option.orElse] at h
    cases h
    obtain ⟨h1, c, t, h2, h3⟩ := matchA_spec ha
    exact ⟨h1, c, t, h2, Or.inl h3⟩

theorem tryMatch_rest_lt {cs m r : List Char} (h : tryMatch cs = some (m, r)) :
    r.length < cs.length := by
  obtain ⟨h1, c, t, h2, -⟩ := tryMatch_spec h
  subst h1 h2
  simp [Nat.lt_succ_iff]

theorem chunksF_congr : ∀ (f1 f2 : Nat) (g cs : List Char),
    cs.length ≤ f1 → cs.length ≤ f2 → chunksF f1 g cs = chunksF f2 g cs := by
  intro f1
  induction f1 with
  | zero =>
    intro f2 g cs h1 h2
    have : cs = [] := List.length_eq_zero.mp (Nat.le_zero.mp h1)
    subst this
    cases f2 <;> rfl
  | succ f ih =>
    intro f2 g cs h1 h2
    cases cs with
    | nil => cases f2 <;> rfl
    | cons c cs' =>
      cases f2 with
      | zero => simp at h2
      | succ f2' =>
        simp only [chunksF]
        rcases hm : tryMatch (c :: cs') with - | ⟨m, r⟩ <;> dsimp only
        · have hlen : cs'.length ≤ f := by simpa using Nat.lt_succ_iff.mp h1
          have hlen2 : cs'.length ≤ f2' := by simpa using Nat.lt_succ_iff.mp h2
          exact ih f2' (c :: g) cs' hlen hlen2
        · have hr := tryMatch_rest_lt hm
          simp only [List.length_cons] at hr h1 h2
          rw [ih f2' [] r (by omega) (by omega)]

theorem chunksRun_nil (g : List Char) : chunksRun g [] = closeGap g [] := rfl

theorem chunksRun_cons (g : List Char) (c : Char) (cs : List Char) :
    chunksRun g (c :: cs) =
      match tryMatch (c :: cs) with
      | some (m, r) => closeGap g ((true, m) :: chunksRun [] r)
      | none => chunksRun (c :: g) cs := by
  unfold chunksRun
  simp only [List.length_cons, chunksF]
  rcases hm : tryMatch (c :: cs) with - | ⟨m, r⟩ <;> dsimp only
  have hr := tryMatch_rest_lt hm
  simp only [List.length_cons] at hr
  rw [chunksF_congr cs.length r.length [] r (by omega) (by omega)]

@[simp] theorem digitVal_0 : digitVal '0' = 0 := rfl

@[simp] theorem digitVal_1 : digitVal '1' = 1 := rfl

@[simp] theorem digitVal_2 : digitVal '2' = 2 := rfl

@[simp] theorem digitVal_3 : digitVal '3' = 3 := rfl

@[simp] theorem digitVal_4 : digitVal '4' = 4 := rfl

@[simp] theorem digitVal_5 : digitVal '5' = 5 := rfl

@[simp] theorem digitVal_6 : digitVal '6' = 6 := rfl

@[simp] theorem digitVal_7 : digitVal '7' = 7 := rfl

@[simp] theorem digitVal_8 : digitVal '8' = 8 := rfl

@[simp] theorem digitVal_9 : digitVal '9' = 9 := rfl

theorem lexNum_rest_lt {cs rest : List Char} {q : ℚ}
    (h : lexNum cs = some (q, rest)) : rest.length < cs.length := by
  simp only [lexNum] at h
  have e1 := congrArg List.length (List.takeWhile_append_dropWhile isPyDigit cs)
  simp only [List.length_append] at e1
  split at h
  · rename_i r2 hr1
    have e2 : (List.dropWhile isPyDigit cs).length = r2.length + 1 := by
      rw [hr1]; simp
    split at h
    · exact absurd h (by simp)
    · simp only [Option.some.injEq, Prod.mk.injEq] at h
      obtain ⟨h5, hr⟩ := h
      have h3 : rest.length ≤ r2.length := by
        rw [← hr]; exact (List.dropWhile_sublist _).length_le
      omega
  · split at h
    · exact absurd h (by simp)
    · split at h
      · exact absurd h (by simp)
      · rename_i hd1 hz
        simp only [Option.some.injEq, Prod.mk.injEq] at h
        obtain ⟨h5, hr⟩ := h
        have h4 : 1 ≤ (cs.takeWhile isPyDigit).length := by
          rcases e : cs.takeWhile isPyDigit with _ | _
          · simp [e] at hd1
          · simp [e]
        rw [← hr]
        omega

theorem tokenizeF_congr : ∀ (f1 f2 d : Nat) (cs : List Char),
    cs.length ≤ f1 → cs.length ≤ f2 → tokenizeF f1 d cs = tokenizeF f2 d cs := by
  intro f1
  induction f1 with
  | zero =>
    intro f2 d cs h1 h2
    have : cs = [] := List.length_eq_zero.mp (Nat.le_zero.mp h1)
    subst this
    cases f2 <;> rfl
  | succ f ih =>
    intro f2 d cs h1 h2
    cases cs with
    | nil => cases f2 <;> rfl
    | cons c cs' =>
      cases f2 with
      | zero => simp at h2
      | succ f2' =>
        have hl : cs'.length ≤ f := by simpa using Nat.lt_succ_iff.mp h1
        have hl2 : cs'.length ≤ f2' := by simpa using Nat.lt_succ_iff.mp h2
        have htl : cs'.tail.length ≤ f := le_trans (by simp [List.length_tail]) hl
        have htl2 : cs'.tail.length ≤ f2' := le_trans (by simp [List.length_tail]) hl2
        simp only [tokenizeF]
        rcases hx : lexNum (c :: cs') with - | ⟨q, rest⟩ <;> dsimp only
        · rw [ih f2' d cs' hl hl2, ih f2' d cs'.tail htl htl2,
            ih f2' (d + 1) cs' hl hl2, ih f2' (d - 1) cs' hl hl2]
        · have hr := lexNum_rest_lt hx
          simp only [List.length_cons] at hr
          rw [ih f2' d cs' hl hl2, ih f2' d cs'.tail htl htl2,
            ih f2' (d + 1) cs' hl hl2, ih f2' (d - 1) cs' hl hl2,
            ih f2' d rest (by omega) (by omega)]

/-! ### Claims about the formula evaluator -/
set_option maxHeartbeats 3200000 in
/-- Claim C4: `evaluate("2 + 3") = 5.0`, `evaluate("(2+3)*2 / 5") = 2.0`
and `evaluate("10.5 / 2") = 5.25`; numeric values are modelled as exact
rationals (`5.25 = 21/4`), and all three results are produced through the
single numeric result channel of the evaluator (Python's final
`float(result)` conversion). -/
theorem claim_C4_concrete_evaluations :
    evaluate_formula ("2 + 3".data) = Except.ok 5 ∧
    evaluate_formula ("(2+3)*2 / 5".data) = Except.ok 2 ∧
    evaluate_formula ("10.5 / 2".data) = Except.ok (21 / 4) := by
  refine ⟨?_, ?_, ?_⟩
  · norm_num +decide [evaluate_formula, formula_whitelist_ok, pyStrip, rstrip, pyEval,
      tokenize, tokenizeD, tokenizeF, isBlank, lexNum, digitsToNat, isPySpace, isPyDigit,
      allowedChar, isOpChar, pyParse, parseF, PExpr.val, List.takeWhile, List.dropWhile,
      Bind.bind, Except.instMonad, Except.bind, Except.pure, pure]
  · have hwl : formula_whitelist_ok ("(2+3)*2 / 5".data) = true := by
      norm_num +decide [formula_whitelist_ok, pyStrip, rstrip, isPySpace, allowedChar,
        isOpChar, isPyDigit, List.takeWhile, List.dropWhile]
    have hstrip : pyStrip ("(2+3)*2 / 5".data) = "(2+3)*2 / 5".data := by
      norm_num +decide [pyStrip, rstrip, isPySpace, List.takeWhile, List.dropWhile]
    have htok : tokenize ("(2+3)*2 / 5".data) =
        some [Tok.lpar, Tok.num 2, Tok.plus, Tok.num 3, Tok.rpar, Tok.star,
          Tok.num 2, Tok.slash, Tok.num 5] := by
      norm_num +decide [tokenize, tokenizeD, tokenizeF, isBlank, lexNum, digitsToNat,
        isPySpace, isPyDigit, List.takeWhile, List.dropWhile]
    have hparse : pyParse [Tok.lpar, Tok.num 2, Tok.plus, Tok.num 3, Tok.rpar, Tok.star,
        Tok.num 2, Tok.slash, Tok.num (5 : ℚ)] =
        some (PExpr.bin BOp.div
          (PExpr.bin BOp.mul
            (PExpr.bin BOp.add (PExpr.num 2) (PExpr.num 3)) (PExpr.num 2))
          (PExpr.num 5)) := by
      norm_num +decide [pyParse, parseF]
    unfold evaluate_formula
    rw [if_pos hwl, hstrip]
    unfold pyEval
    rw [htok]
    dsimp only
    rw [hparse]
    dsimp only
    norm_num [PExpr.val, Bind.bind, Except.instMonad, Except.bind, Except.pure, pure]
  · norm_num +decide [evaluate_formula, formula_whitelist_ok, pyStrip, rstrip, pyEval,
      tokenize, tokenizeD, tokenizeF, isBlank, lexNum, digitsToNat, isPySpace, isPyDigit,
      allowedChar, isOpChar, pyParse, parseF, PExpr.val, List.takeWhile, List.dropWhile,
      Bind.bind, Except.instMonad, Except.bind, Except.pure, pure]

set_option maxHeartbeats 3200000 in
/-- Claim C3, checked at the claim's own failing input: the whitelisted
formula `"2 + + 3"` does NOT fail — Python parses the second `+` as unary
plus and `evaluate_formula` returns `5.0`, contradicting both the claim and
the repository's test `test_evaluate_invalid_formula`.  The other two
error cases of the claim behave as follows: `"10 / 0"` is caught and
surfaced as the wrapped `ZeroDivisionError`, while the empty formula is
rejected by the character whitelist (its `+` quantifier needs at least one
character), not by a syntax error. -/
theorem claim_C3_code_check :
    evaluate_formula ("2 + + 3".data) = Except.ok 5 ∧
    evaluate_formula ("10 / 0".data) =
      Except.error (FormulaError.evalErr PyErr.zeroDiv) ∧
    evaluate_formula [] = Except.error FormulaError.invalidChars := by
  refine ⟨?_, ?_, ?_⟩ <;>
    norm_num +decide [evaluate_formula, formula_whitelist_ok, pyStrip, rstrip, pyEval,
      tokenize, tokenizeD, tokenizeF, isBlank, lexNum, digitsToNat, isPySpace, isPyDigit, allowedChar, isOpChar,
      pyParse, parseF, PExpr.val, List.takeWhile, List.dropWhile, Bind.bind, Except.instMonad,
      Except.bind, Except.pure, pure]

/-- Claim C2, counterexample: the claim's iff fails at the empty input.
The empty string trims to the empty string, every character of which
belongs (vacuously) to the allowed set, yet the validator rejects it: the
whitelist regex `^[\d\+\-\*/\(\)\.\s]+$` requires at least one
character. -/
theorem claim_C2_counterexample :
    ¬ (formula_whitelist_ok [] = true ↔ ∀ c ∈ pyStrip [], allowedChar c = true) := by
  decide

/-- Claim C2, amended: the validator first trims, then succeeds iff the
trimmed string is non-empty AND every character of it belongs to the
allowed set; `evaluate_formula` fails with the invalid-characters error
exactly when the validator fails. -/
theorem claim_C2_amended (s : List Char) :
    (formula_whitelist_ok s = true ↔
      pyStrip s ≠ [] ∧ ∀ c ∈ pyStrip s, allowedChar c = true) ∧
    (evaluate_formula s = Except.error FormulaError.invalidChars ↔
      formula_whitelist_ok s = false) := by
  constructor
  · simp [formula_whitelist_ok, List.isEmpty_iff, List.all_eq_true]
  · unfold evaluate_formula
    rcases hw : formula_whitelist_ok s with - | -
    · simp
    · simp only [if_true]
      rcases pyEval (pyStrip s) with - | - <;> simp

/-- Claim C2 amended, witness at a concrete input. -/
theorem claim_C2_amended_witness : formula_whitelist_ok ("2+3".data) = true :=
  (claim_C2_amended ("2+3".data)).1.mpr (by decide)

/-- Claim C10: the `divide` tool fails (with the message
`Cannot divide by zero`) iff the denominator is zero, and otherwise returns
the exact quotient; the zero test precedes the division, so no
division-by-zero fault can escape. -/
theorem claim_C10_divide (a b : ℚ) :
    ((∃ msg, divide a b = Except.error msg) ↔ b = 0) ∧
    (b ≠ 0 → divide a b = Except.ok (a / b)) ∧
    (b = 0 → divide a b = Except.error "Cannot divide by zero") := by
  unfold divide
  by_cases hb : b = 0 <;> simp [hb]

/-- Claim C10, witness at concrete inputs. -/
theorem claim_C10_divide_witness :
    divide 10 4 = Except.ok (10 / 4) ∧
    divide 10 0 = Except.error "Cannot divide by zero" :=
  ⟨(claim_C10_divide 10 4).2.1 (by norm_num), (claim_C10_divide 10 0).2.2 rfl⟩

/-! ### Claims about the math-expression detector -/
/-- Claim C5, counterexample: the claim asserts that
`contains_math_expression` returns `true` on
`Can you help me solve for x: 2x + 5 = 11`, but it returns `false`: the
assignment alternative needs a letter (up to whitespace) immediately before
`=`, and here a digit precedes `=`; and no digit-operator-digit span
occurs (`2x` and `5 =` do not qualify). -/
theorem claim_C5_counterexample :
    contains_math_expression mathHomeworkQuestion = false := by
  decide

/-- Claim C5, amended: both sample inputs are classified `false` by the
regex detector — the California question as the claim states, and the math
homework question contrary to the claim (in the program that input is
caught by the LLM-based guardrail, not by this regex). -/
theorem claim_C5_amended :
    contains_math_expression californiaQuestion = false ∧
    contains_math_expression mathHomeworkQuestion = false := by
  constructor <;> decide

/-! ### Character-class and strip lemmas -/
theorem isPySpace_elim {c : Char} (h : isPySpace c = true) :
    c = ' ' ∨ c = '\t' ∨ c = '\n' ∨ c = '\r' ∨ c = Char.ofNat 11 ∨ c = Char.ofNat 12 := by
  simp only [isPySpace, Bool.or_eq_true, decide_eq_true_eq] at h
  tauto

theorem not_digit_of_space {c : Char} (h : isPySpace c = true) : isPyDigit c = false := by
  rcases isPySpace_elim h with rfl | rfl | rfl | rfl | rfl | rfl <;> decide

theorem not_letter_of_space {c : Char} (h : isPySpace c = true) : isAsciiLetter c = false := by
  rcases isPySpace_elim h with rfl | rfl | rfl | rfl | rfl | rfl <;> decide

theorem not_space_of_digit {c : Char} (h : isPyDigit c = true) : isPySpace c = false := by
  rcases hs : isPySpace c with - | -
  · rfl
  · rw [not_digit_of_space hs] at h
    exact absurd h (by simp)

theorem not_space_of_letter {c : Char} (h : isAsciiLetter c = true) : isPySpace c = false := by
  rcases hs : isPySpace c with - | -
  · rfl
  · rw [not_letter_of_space hs] at h
    exact absurd h (by simp)

theorem pyStrip_eq_nil_of_space {l : List Char} (h : ∀ c ∈ l, isPySpace c = true) :
    pyStrip l = [] := by
  have hd : l.dropWhile isPySpace = [] := by
    rw [List.dropWhile_eq_nil_iff]
    exact h
  rw [pyStrip, hd]
  rfl

theorem pyStrip_ne_nil {c : Char} {t : List Char} (h : isPySpace c = false) :
    pyStrip (c :: t) ≠ [] := by
  have hd : (c :: t).dropWhile isPySpace = c :: t := by
    rw [List.dropWhile_cons, h]
    simp
  rw [pyStrip, hd, rstrip]
  intro hcon
  have h2 : (c :: t).reverse.dropWhile isPySpace = [] := by
    have := congrArg List.reverse hcon
    simpa using this
  rw [List.dropWhile_eq_nil_iff] at h2
  have hc := h2 c (by simp)
  rw [h] at hc
  exact absurd hc (by simp)

/-- The stripped list sits inside the original list. -/
theorem pyStrip_decomp (l : List Char) : ∃ pre post, l = pre ++ pyStrip l ++ post := by
  refine ⟨l.takeWhile isPySpace,
    ((l.dropWhile isPySpace).reverse.takeWhile isPySpace).reverse, ?_⟩
  conv_lhs => rw [← List.takeWhile_append_dropWhile isPySpace l]
  rw [List.append_assoc]
  congr 1
  rw [pyStrip, rstrip]
  rw [← List.reverse_append,
    List.takeWhile_append_dropWhile isPySpace (l.dropWhile isPySpace).reverse,
    List.reverse_reverse]

theorem tryMatch_none_of_space {c : Char} {t : List Char}
    (hc : isPySpace c = true) : tryMatch (c :: t) = none := by
  have hd : isPyDigit c = false := not_digit_of_space hc
  have hl : isAsciiLetter c = false := not_letter_of_space hc
  simp [tryMatch, matchA, matchB, List.takeWhile_cons, hd, hl, Option.orElse]

/-! ### Chunk-level lemmas for the segmenter -/
theorem chunks_join_aux : ∀ (n : Nat) (cs g : List Char), cs.length ≤ n →
    ((chunksRun g cs).map Prod.snd).flatten = g.reverse ++ cs := by
  intro n
  induction n with
  | zero =>
    intro cs g h
    have : cs = [] := List.length_eq_zero.mp (Nat.le_zero.mp h)
    subst this
    rw [chunksRun_nil, closeGap]
    split
    · rename_i hg
      subst hg
      simp
    · simp
  | succ n ih =>
    intro cs g h
    cases cs with
    | nil =>
      rw [chunksRun_nil, closeGap]
      split
      · rename_i hg
        subst hg
        simp
      · simp
    | cons c cs' =>
      rw [chunksRun_cons]
      rcases hm : tryMatch (c :: cs') with - | ⟨m, r⟩ <;> dsimp only
      · rw [ih cs' (c :: g) (by simp only [List.length_cons] at h; omega)]
        simp
      · obtain ⟨heq, -⟩ := tryMatch_spec hm
        have hr := tryMatch_rest_lt hm
        simp only [List.length_cons] at hr h
        rw [closeGap]
        split
        · rename_i hg
          subst hg
          simp only [List.map_cons, List.flatten_cons, List.reverse_nil, List.nil_append]
          rw [ih r [] (by omega)]
          simpa using heq.symm
        · simp only [List.map_cons, List.flatten_cons]
          rw [ih r [] (by omega)]
          simp only [List.reverse_nil, List.nil_append, List.append_assoc]
          rw [← heq]

/-- The pieces of the finditer walk concatenate to the whole text. -/
theorem chunks_join (text : List Char) :
    ((mathChunks text).map Prod.snd).flatten = text :=
  chunks_join_aux text.length text [] (Nat.le_refl _)

theorem chunks_ne_nil_aux : ∀ (n : Nat) (cs g : List Char), cs.length ≤ n →
    ∀ p ∈ chunksRun g cs, p.2 ≠ [] := by
  intro n
  induction n with
  | zero =>
    intro cs g h p hp
    have : cs = [] := List.length_eq_zero.mp (Nat.le_zero.mp h)
    subst this
    rw [chunksRun_nil, closeGap] at hp
    split at hp
    · simp at hp
    · rename_i hg
      simp only [List.mem_singleton] at hp
      subst hp
      simpa using hg
  | succ n ih =>
    intro cs g h p hp
    cases cs with
    | nil =>
      rw [chunksRun_nil, closeGap] at hp
      split at hp
      · simp at hp
      · rename_i hg
        simp only [List.mem_singleton] at hp
        subst hp
        simpa using hg
    | cons c cs' =>
      rw [chunksRun_cons] at hp
      rcases hm : tryMatch (c :: cs') with - | ⟨m, r⟩
      · rw [hm] at hp
        dsimp only at hp
        exact ih cs' (c :: g) (by simp only [List.length_cons] at h; omega) p hp
      · rw [hm] at hp
        dsimp only at hp
        have hr := tryMatch_rest_lt hm
        simp only [List.length_cons] at hr h
        obtain ⟨-, c0, t0, hm0, -⟩ := tryMatch_spec hm
        rw [closeGap] at hp
        split at hp
        · rcases List.mem_cons.mp hp with hp1 | hp2
          · subst hp1
            simp [hm0]
          · exact ih r [] (by omega) p hp2
        · rename_i hg
          rcases List.mem_cons.mp hp with hp1 | hp3
          · subst hp1
            simpa using hg
          · rcases List.mem_cons.mp hp3 with hp1 | hp2
            · subst hp1
              simp [hm0]
            · exact ih r [] (by omega) p hp2

theorem chunks_true_head_aux : ∀ (n : Nat) (cs g : List Char), cs.length ≤ n →
    ∀ p ∈ chunksRun g cs, p.1 = true →
      ∃ c t, p.2 = c :: t ∧ (isPyDigit c = true ∨ isAsciiLetter c = true) := by
  intro n
  induction n with
  | zero =>
    intro cs g h p hp htrue
    have : cs = [] := List.length_eq_zero.mp (Nat.le_zero.mp h)
    subst this
    rw [chunksRun_nil, closeGap] at hp
    split at hp
    · simp at hp
    · simp only [List.mem_singleton] at hp
      subst hp
      simp at htrue
  | succ n ih =>
    intro cs g h p hp htrue
    cases cs with
    | nil =>
      rw [chunksRun_nil, closeGap] at hp
      split at hp
      · simp at hp
      · simp only [List.mem_singleton] at hp
        subst hp
        simp at htrue
    | cons c cs' =>
      rw [chunksRun_cons] at hp
      rcases hm : tryMatch (c :: cs') with - | ⟨m, r⟩
      · rw [hm] at hp
        dsimp only at hp
        exact ih cs' (c :: g) (by simp only [List.length_cons] at h; omega) p hp htrue
      · rw [hm] at hp
        dsimp only at hp
        have hr := tryMatch_rest_lt hm
        simp only [List.length_cons] at hr h
        obtain ⟨-, c0, t0, hm0, hc0⟩ := tryMatch_spec hm
        rw [closeGap] at hp
        split at hp
        · rcases List.mem_cons.mp hp with hp1 | hp2
          · subst hp1
            exact ⟨c0, t0, hm0, hc0⟩
          · exact ih r [] (by omega) p hp2 htrue
        · rcases List.mem_cons.mp hp with hp1 | hp3
          · subst hp1
            simp at htrue
          · rcases List.mem_cons.mp hp3 with hp1 | hp2
            · subst hp1
              exact ⟨c0, t0, hm0, hc0⟩
            · exact ih r [] (by omega) p hp2 htrue

theorem contains_iff_chunks_aux : ∀ (n : Nat) (cs g : List Char), cs.length ≤ n →
    (contains_math_expression cs = true ↔ ∃ m, (true, m) ∈ chunksRun g cs) := by
  intro n
  induction n with
  | zero =>
    intro cs g h
    have : cs = [] := List.length_eq_zero.mp (Nat.le_zero.mp h)
    subst this
    simp only [contains_math_expression]
    rw [chunksRun_nil, closeGap]
    constructor
    · intro hcon
      exact absurd hcon (by simp)
    · intro ⟨m, hm⟩
      split at hm <;> simp at hm
  | succ n ih =>
    intro cs g h
    cases cs with
    | nil =>
      simp only [contains_math_expression]
      rw [chunksRun_nil, closeGap]
      constructor
      · intro hcon
        exact absurd hcon (by simp)
      · intro ⟨m, hm⟩
        split at hm <;> simp at hm
    | cons c cs' =>
      rw [chunksRun_cons]
      rcases hm : tryMatch (c :: cs') with - | ⟨m, r⟩ <;> dsimp only
      · simp only [contains_math_expression, hm, Option.isSome_none, Bool.false_or]
        exact ih cs' (c :: g) (by simp only [List.length_cons] at h; omega)
      · simp only [contains_math_expression, hm, Option.isSome_some, Bool.true_or,
          true_iff]
        refine ⟨m, ?_⟩
        rw [closeGap]
        split <;> simp

theorem emitSeg_some {p : Bool × List Char} {seg : Segment} (h : emitSeg p = some seg) :
    seg.kind = (if p.1 then SegKind.math else SegKind.normal) ∧
      seg.content = pyStrip p.2 ∧ pyStrip p.2 ≠ [] := by
  simp only [emitSeg] at h
  split at h
  · exact absurd h (by simp)
  · rename_i hne
    simp only [Option.some.injEq] at h
    subst h
    exact ⟨rfl, rfl, hne⟩

theorem split_space_aux : ∀ (n : Nat) (cs g : List Char), cs.length ≤ n →
    (∀ c ∈ cs, isPySpace c = true) → (∀ c ∈ g, isPySpace c = true) →
    (chunksRun g cs).filterMap emitSeg = [] := by
  intro n
  induction n with
  | zero =>
    intro cs g h hcs hg
    have : cs = [] := List.length_eq_zero.mp (Nat.le_zero.mp h)
    subst this
    rw [chunksRun_nil, closeGap]
    split
    · rfl
    · have : pyStrip g.reverse = [] :=
        pyStrip_eq_nil_of_space (fun c hc => hg c (List.mem_reverse.mp hc))
      simp [emitSeg, this]
  | succ n ih =>
    intro cs g h hcs hg
    cases cs with
    | nil =>
      rw [chunksRun_nil, closeGap]
      split
      · rfl
      · have : pyStrip g.reverse = [] :=
          pyStrip_eq_nil_of_space (fun c hc => hg c (List.mem_reverse.mp hc))
        simp [emitSeg, this]
    | cons c cs' =>
      rw [chunksRun_cons, tryMatch_none_of_space (hcs c (List.mem_cons_self c cs'))]
      dsimp only
      refine ih cs' (c :: g) (by simp only [List.length_cons] at h; omega)
        (fun x hx => hcs x (List.mem_cons_of_mem c hx)) ?_
      intro x hx
      rcases List.mem_cons.mp hx with h1 | h2
      · subst h1
        exact hcs x (List.mem_cons_self x cs')
      · exact hg x h2

theorem flatten_decomp :
    ∀ (ps : List (Bool × List Char)) (p : Bool × List Char), p ∈ ps →
      ∃ l r, (ps.map Prod.snd).flatten = l ++ p.2 ++ r := by
  intro ps
  induction ps with
  | nil =>
    intro p hp
    simp at hp
  | cons q rest ih =>
    intro p hp
    rcases List.mem_cons.mp hp with h1 | h2
    · subst h1
      exact ⟨[], (rest.map Prod.snd).flatten, by simp⟩
    · obtain ⟨l, r, hlr⟩ := ih p h2
      exact ⟨q.2 ++ l, r, by simp [hlr, List.append_assoc]⟩

/-! ### Claims about the text segmenter -/
/-- Claim C7: `segment("")` is empty, `segment` of any whitespace-only
string is empty, and `segment("hello 2+2 world")` is exactly the three
segments `Normal "hello"`, `Math "2+2"`, `Normal "world"` in that order. -/
theorem claim_C7_segment_examples :
    split_input_by_math_expressions [] = [] ∧
    (∀ ws : List Char, (∀ c ∈ ws, isPySpace c = true) →
      split_input_by_math_expressions ws = []) ∧
    split_input_by_math_expressions ("hello 2+2 world".data) =
      [⟨SegKind.normal, "hello".data⟩, ⟨SegKind.math, "2+2".data⟩,
        ⟨SegKind.normal, "world".data⟩] := by
  refine ⟨rfl, ?_, by decide⟩
  intro ws hws
  exact split_space_aux ws.length ws [] (Nat.le_refl _) hws (by simp)

/-- Claim C7, witness for the whitespace-only case at a concrete input. -/
theorem claim_C7_segment_examples_witness :
    split_input_by_math_expressions ("   ".data) = [] :=
  claim_C7_segment_examples.2.1 ("   ".data) (by decide)

/-- Claim C6: the guardrail tripwire predicate `contains_math_expression`
(of `input_guardrails_v0.py`) is `true` exactly when the splitter (of
`input_guardrails_v1.py`) produces at least one `Math` segment; moreover no
finditer match is ever dropped by the splitter's emptiness check — every
matched piece has non-empty stripped content. -/
theorem claim_C6_tripwire_iff_math_segment (text : List Char) :
    (contains_math_expression text = true ↔
      ∃ seg ∈ split_input_by_math_expressions text, seg.kind = SegKind.math) ∧
    (∀ p ∈ mathChunks text, p.1 = true → pyStrip p.2 ≠ []) := by
  have hstrip : ∀ p ∈ mathChunks text, p.1 = true → pyStrip p.2 ≠ [] := by
    intro p hp ht
    obtain ⟨c, t, hpc, hd⟩ :=
      chunks_true_head_aux text.length text [] (Nat.le_refl _) p hp ht
    have hs : isPySpace c = false := by
      rcases hd with hd | hd
      · exact not_space_of_digit hd
      · exact not_space_of_letter hd
    rw [hpc]
    exact pyStrip_ne_nil hs
  refine ⟨?_, hstrip⟩
  rw [contains_iff_chunks_aux text.length text [] (Nat.le_refl _)]
  constructor
  · rintro ⟨m, hm⟩
    have hne := hstrip (true, m) hm rfl
    refine ⟨⟨SegKind.math, pyStrip m⟩, ?_, rfl⟩
    unfold split_input_by_math_expressions
    rw [List.mem_filterMap]
    exact ⟨(true, m), hm, by simp [emitSeg, hne]⟩
  · rintro ⟨seg, hseg, hkind⟩
    unfold split_input_by_math_expressions at hseg
    rw [List.mem_filterMap] at hseg
    obtain ⟨p, hp, hemit⟩ := hseg
    obtain ⟨hk, -, -⟩ := emitSeg_some hemit
    rcases p with ⟨b, x⟩
    rcases hb : b with - | -
    · subst hb
      simp only [if_false] at hk
      rw [hk] at hkind
      exact absurd hkind (by simp)
    · subst hb
      exact ⟨x, hp⟩

/-- Claim C6, witness at a concrete input. -/
theorem claim_C6_tripwire_iff_math_segment_witness :
    ∃ seg ∈ split_input_by_math_expressions ("2+2".data),
      seg.kind = SegKind.math :=
  (claim_C6_tripwire_iff_math_segment ("2+2".data)).1.mp (by decide)

/-- Claim C8: the segments are derived, in source order, from the list of
finditer pieces whose concatenation is exactly the input text; every
emitted segment has non-empty content equal to the whitespace-trimmed
content of its piece, and in particular occurs as a contiguous substring of
the input — no characters are invented. -/
theorem claim_C8_segment_invariants (text : List Char) :
    (((mathChunks text).map Prod.snd).flatten = text ∧
      split_input_by_math_expressions text = (mathChunks text).filterMap emitSeg ∧
      ∀ p ∈ mathChunks text, p.2 ≠ []) ∧
    (∀ seg ∈ split_input_by_math_expressions text,
      seg.content ≠ [] ∧ ∃ l r, text = l ++ seg.content ++ r) := by
  refine ⟨⟨chunks_join text, rfl, chunks_ne_nil_aux text.length text [] (Nat.le_refl _)⟩, ?_⟩
  intro seg hseg
  unfold split_input_by_math_expressions at hseg
  rw [List.mem_filterMap] at hseg
  obtain ⟨p, hp, hemit⟩ := hseg
  obtain ⟨-, hcontent, hne⟩ := emitSeg_some hemit
  refine ⟨by rw [hcontent]; exact hne, ?_⟩
  obtain ⟨l, r, hlr⟩ := flatten_decomp (mathChunks text) p hp
  obtain ⟨pre, post, hsplit⟩ := pyStrip_decomp p.2
  refine ⟨l ++ pre, post ++ r, ?_⟩
  rw [← chunks_join text, hlr, hsplit, hcontent]
  simp [List.append_assoc]

/-- Claim C8, witness at a concrete input. -/
theorem claim_C8_segment_invariants_witness :
    (⟨SegKind.math, "2+2".data⟩ : Segment).content ≠ [] ∧
    ∃ l r, "hello 2+2 world".data =
      l ++ (⟨SegKind.math, "2+2".data⟩ : Segment).content ++ r :=
  (claim_C8_segment_invariants ("hello 2+2 world".data)).2
    ⟨SegKind.math, "2+2".data⟩ (by decide)

/-! ### Tokenizing a rendered expression -/
theorem takeWhile_append_of_all {p : Char → Bool} :
    ∀ {xs : List Char}, (∀ c ∈ xs, p c = true) → ∀ ys : List Char,
      (xs ++ ys).takeWhile p = xs ++ ys.takeWhile p ∧
        (xs ++ ys).dropWhile p = ys.dropWhile p := by
  intro xs
  induction xs with
  | nil =>
    intro h ys
    simp
  | cons c t ih =>
    intro h ys
    have hc : p c = true := h c (List.mem_cons_self c t)
    have := ih (fun x hx => h x (List.mem_cons_of_mem c hx)) ys
    simp [List.takeWhile_cons, List.dropWhile_cons, hc, this.1, this.2]

theorem digit_not_special {c : Char} (h : isPyDigit c = true) :
    isPySpace c = false ∧ c ≠ '+' ∧ c ≠ '-' ∧ c ≠ '*' ∧ c ≠ '/' ∧
      c ≠ '(' ∧ c ≠ ')' ∧ c ≠ '.' := by
  refine ⟨not_space_of_digit h, ?_, ?_, ?_, ?_, ?_, ?_, ?_⟩ <;>
    (rintro rfl; exact absurd h (by decide))

theorem opParen_not_digit {c : Char}
    (h : c = '+' ∨ c = '-' ∨ c = '*' ∨ c = '/' ∨ c = '(' ∨ c = ')') :
    isPyDigit c = false := by
  rcases h with rfl | rfl | rfl | rfl | rfl | rfl <;> decide

/-! ### Evaluating a rendered expression -/
theorem rstrip_eq_self {l : List Char} (h : ∀ c ∈ l, isPySpace c = false) :
    rstrip l = l := by
  unfold rstrip
  rcases hrev : l.reverse with - | ⟨d, u⟩
  · simp only [List.dropWhile_nil]
    rw [← hrev, List.reverse_reverse]
  · have hd : isPySpace d = false := by
      apply h
      rw [← List.mem_reverse, hrev]
      exact List.mem_cons_self d u
    rw [List.dropWhile_cons, hd]
    simp only [Bool.false_eq_true, if_false]
    rw [← hrev, List.reverse_reverse]

theorem pyStrip_eq_self {l : List Char} (h : ∀ c ∈ l, isPySpace c = false) :
    pyStrip l = l := by
  unfold pyStrip
  have hd : l.dropWhile isPySpace = l := by
    cases l with
    | nil => rfl
    | cons c t =>
      rw [List.dropWhile_cons, h c (List.mem_cons_self c t)]
      simp
  rw [hd]
  exact rstrip_eq_self h

theorem astOf_val : ∀ (e : AExpr) (q : ℚ), AExpr.value e = some q →
    PExpr.val (astOf e) = Except.ok q := by
  intro e
  induction e with
  | lit n =>
    intro q h
    simp only [AExpr.value, Option.some.injEq] at h
    subst h
    rfl
  | bin o l r ihl ihr =>
    intro q h
    rcases hvl : AExpr.value l with - | a
    · rw [AExpr.value, hvl] at h
      simp at h
    · rcases hvr : AExpr.value r with - | b
      · rw [AExpr.value, hvl, hvr] at h
        simp at h
      · rw [AExpr.value, hvl, hvr] at h
        simp only [Option.bind_eq_bind, Option.some_bind] at h
        have hl := ihl a hvl
        have hr := ihr b hvr
        cases o with
        | add =>
          injection h with h
          subst h
          simp only [astOf, bopOf, PExpr.val, hl, hr, Bind.bind, Except.instMonad,
            Except.bind, Except.pure, pure]
        | sub =>
          injection h with h
          subst h
          simp only [astOf, bopOf, PExpr.val, hl, hr, Bind.bind, Except.instMonad,
            Except.bind, Except.pure, pure]
        | mul =>
          injection h with h
          subst h
          simp only [astOf, bopOf, PExpr.val, hl, hr, Bind.bind, Except.instMonad,
            Except.bind, Except.pure, pure]
        | div =>
          by_cases hb : b = 0
          · rw [if_pos hb] at h
            exact absurd h (by simp)
          · rw [show ((if b = 0 then none else some (a / b)) : Option ℚ) =
              some (a / b) from if_neg hb] at h
            injection h with h
            subst h
            simp only [astOf, bopOf, PExpr.val, hl, hr, Bind.bind, Except.instMonad,
              Except.bind, Except.pure, pure]
            rw [if_neg hb]

/-! ### Re-segmentation of a math span (claim C9) -/
theorem isOpChar_elim {c : Char} (h : isOpChar c = true) :
    c = '+' ∨ c = '-' ∨ c = '*' ∨ c = '/' := by
  simp only [isOpChar, Bool.or_eq_true, decide_eq_true_eq] at h
  tauto

theorem not_digit_of_op {c : Char} (h : isOpChar c = true) : isPyDigit c = false := by
  rcases isOpChar_elim h with rfl | rfl | rfl | rfl <;> decide

theorem not_space_of_op {c : Char} (h : isOpChar c = true) : isPySpace c = false := by
  rcases isOpChar_elim h with rfl | rfl | rfl | rfl <;> decide

theorem not_digit_of_letter {c : Char} (h : isAsciiLetter c = true) :
    isPyDigit c = false := by
  rcases hd : isPyDigit c with - | -
  · rfl
  · exfalso
    simp only [isPyDigit, Bool.and_eq_true, decide_eq_true_eq] at hd
    simp only [isAsciiLetter, Bool.or_eq_true, Bool.and_eq_true, decide_eq_true_eq] at h
    obtain ⟨-, hd2⟩ := hd
    rcases h with ⟨ha, -⟩ | ⟨ha, -⟩
    · exact absurd (le_trans ha hd2) (by decide)
    · exact absurd (le_trans ha hd2) (by decide)

theorem mem_of_mem_dropWhile {p : Char → Bool} :
    ∀ {l : List Char} {x : Char}, x ∈ l.dropWhile p → x ∈ l := by
  intro l
  induction l with
  | nil => intro x hx; simp at hx
  | cons c t ih =>
    intro x hx
    rw [List.dropWhile_cons] at hx
    split at hx
    · exact List.mem_cons_of_mem c (ih hx)
    · exact hx

theorem dropWhile_head_false {p : Char → Bool} :
    ∀ {l : List Char} {x : Char} {t : List Char}, l.dropWhile p = x :: t → p x = false := by
  intro l
  induction l with
  | nil => intro x t hx; simp at hx
  | cons c cs ih =>
    intro x t hx
    rw [List.dropWhile_cons] at hx
    split at hx
    · exact ih hx
    · rename_i hc
      cases hx
      simpa using hc

theorem dropWhile_append_stop {p : Char → Bool} {y : Char} {b : List Char}
    (hy : p y = false) :
    ∀ a : List Char, (a ++ y :: b).dropWhile p = a.dropWhile p ++ y :: b := by
  intro a
  induction a with
  | nil =>
    simp only [List.nil_append, List.dropWhile_nil]
    rw [List.dropWhile_cons, hy]
    simp
  | cons x xs ih =>
    simp only [List.cons_append]
    rw [List.dropWhile_cons, List.dropWhile_cons]
    split
    · exact ih
    · rfl

theorem takeWhile_all {p : Char → Bool} {l : List Char} (h : ∀ c ∈ l, p c = true) :
    l.takeWhile p = l ∧ l.dropWhile p = [] := by
  have := takeWhile_append_of_all h []
  simpa using this

theorem scan_block {p : Char → Bool} {xs ys : List Char}
    (hall : ∀ c ∈ xs, p c = true)
    (hstop : ys = [] ∨ ∃ y t, ys = y :: t ∧ p y = false) :
    (xs ++ ys).takeWhile p = xs ∧ (xs ++ ys).dropWhile p = ys := by
  obtain ⟨ht, hd⟩ := takeWhile_append_of_all hall ys
  rcases hstop with rfl | ⟨y, t, rfl, hy⟩
  · rw [ht, hd]
    simp
  · rw [ht, hd, List.takeWhile_cons, List.dropWhile_cons, hy]
    simp

theorem pyStrip_eq_self_of_ends {l : List Char}
    (h1 : ∀ c, l.head? = some c → isPySpace c = false)
    (h2 : ∀ c, l.getLast? = some c → isPySpace c = false) : pyStrip l = l := by
  cases l with
  | nil => rfl
  | cons x t =>
    have hx := h1 x rfl
    unfold pyStrip
    rw [List.dropWhile_cons, hx]
    simp only [Bool.false_eq_true, if_false]
    unfold rstrip
    rcases hrev : (x :: t).reverse with - | ⟨d, u⟩
    · exact absurd hrev (by simp)
    · have hd : isPySpace d = false := by
        apply h2
        rw [← List.head?_reverse, hrev]
        rfl
      rw [List.dropWhile_cons, hd]
      simp only [Bool.false_eq_true, if_false]
      rw [← hrev, List.reverse_reverse]

theorem mem_rstrip {x : Char} {l : List Char} (h : x ∈ rstrip l) : x ∈ l := by
  unfold rstrip at h
  rw [List.mem_reverse] at h
  rw [← List.mem_reverse]
  exact mem_of_mem_dropWhile h

theorem rstrip_getLast_not_space {l : List Char} {x : Char}
    (h : (rstrip l).getLast? = some x) : isPySpace x = false := by
  unfold rstrip at h
  rw [List.getLast?_reverse] at h
  rcases hd : (l.reverse.dropWhile isPySpace) with - | ⟨y, u⟩
  · rw [hd] at h
    exact absurd h (by simp)
  · rw [hd] at h
    simp only [List.head?_cons, Option.some.injEq] at h
    subst h
    exact dropWhile_head_false hd

theorem matchA_struct {cs m r : List Char} (h : matchA cs = some (m, r)) :
    ∃ d1 w1 c w2 d2, m = d1 ++ w1 ++ c :: (w2 ++ d2) ∧ d1 ≠ [] ∧ d2 ≠ [] ∧
      (∀ x ∈ d1, isPyDigit x = true) ∧ (∀ x ∈ w1, isPySpace x = true) ∧
      isOpChar c = true ∧ (∀ x ∈ w2, isPySpace x = true) ∧
      (∀ x ∈ d2, isPyDigit x = true) := by
  unfold matchA at h
  simp only [List.isEmpty_iff] at h
  split at h
  · exact absurd h (by simp)
  · split at h
    · exact absurd h (by simp)
    · rename_i hd1 r2c c r3 hr2
      split at h
      · split at h
        · exact absurd h (by simp)
        · rename_i hop hd2
          simp only [Option.some.injEq, Prod.mk.injEq] at h
          obtain ⟨hm, -⟩ := h
          refine ⟨cs.takeWhile isPyDigit, (cs.dropWhile isPyDigit).takeWhile isPySpace,
            c, r3.takeWhile isPySpace, (r3.dropWhile isPySpace).takeWhile isPyDigit,
            hm.symm, hd1, hd2, ?_, ?_, hop, ?_, ?_⟩ <;>
            exact fun x hx => List.mem_takeWhile_imp hx
      · exact absurd h (by simp)

theorem matchB_struct {cs m r : List Char} (h : matchB cs = some (m, r)) :
    ∃ c w1 k, m = c :: (w1 ++ '=' :: k) ∧ isAsciiLetter c = true ∧
      (∀ x ∈ w1, isPySpace x = true) ∧ (∀ x ∈ k, isMathClass x = true) ∧ k ≠ [] := by
  unfold matchB at h
  split at h
  · exact absurd h (by simp)
  · rename_i c r1
    split at h
    · rename_i hlet
      simp only [List.isEmpty_iff] at h
      split at h
      · rename_i r3 hr2
        split at h
        · exact absurd h (by simp)
        · rename_i hk
          simp only [Option.some.injEq, Prod.mk.injEq] at h
          obtain ⟨hm, -⟩ := h
          exact ⟨c, r1.takeWhile isPySpace, r3.takeWhile isMathClass, hm.symm, hlet,
            fun x hx => List.mem_takeWhile_imp hx,
            fun x hx => List.mem_takeWhile_imp hx, hk⟩
      · exact absurd h (by simp)
    · exact absurd h (by simp)

theorem matchA_forward {d1 w1 w2 d2 : List Char} {c : Char}
    (hd1 : d1 ≠ []) (ha1 : ∀ x ∈ d1, isPyDigit x = true)
    (hw1 : ∀ x ∈ w1, isPySpace x = true) (hc : isOpChar c = true)
    (hw2 : ∀ x ∈ w2, isPySpace x = true)
    (hd2 : d2 ≠ []) (ha2 : ∀ x ∈ d2, isPyDigit x = true) :
    matchA (d1 ++ w1 ++ c :: (w2 ++ d2)) =
      some (d1 ++ w1 ++ c :: (w2 ++ d2), []) := by
  have hstop1 : w1 ++ c :: (w2 ++ d2) = [] ∨
      ∃ y t, w1 ++ c :: (w2 ++ d2) = y :: t ∧ isPyDigit y = false := by
    cases w1 with
    | nil => exact Or.inr ⟨c, w2 ++ d2, rfl, not_digit_of_op hc⟩
    | cons y t =>
      exact Or.inr ⟨y, t ++ c :: (w2 ++ d2), rfl,
        not_digit_of_space (hw1 y (List.mem_cons_self y t))⟩
  obtain ⟨ht1, hd1e⟩ := scan_block ha1 hstop1
  have hstop2 : (c :: (w2 ++ d2) : List Char) = [] ∨
      ∃ y t, c :: (w2 ++ d2) = y :: t ∧ isPySpace y = false :=
    Or.inr ⟨c, w2 ++ d2, rfl, not_space_of_op hc⟩
  obtain ⟨ht2, hd2e⟩ := scan_block hw1 hstop2
  have hstop3 : d2 = [] ∨ ∃ y t, d2 = y :: t ∧ isPySpace y = false := by
    cases d2 with
    | nil => exact absurd rfl hd2
    | cons y t =>
      exact Or.inr ⟨y, t, rfl, not_space_of_digit (ha2 y (List.mem_cons_self y t))⟩
  obtain ⟨ht3, hd3e⟩ := scan_block hw2 hstop3
  obtain ⟨ht4, hd4e⟩ := takeWhile_all ha2
  simp only [matchA, List.append_assoc, List.cons_append]
  rw [ht1, hd1e, ht2, hd2e]
  simp only [List.isEmpty_iff]
  rw [if_neg hd1]
  rw [if_pos hc, ht3, hd3e, ht4, hd4e]
  rw [if_neg hd2]

theorem matchB_forward {w1 k : List Char} {c : Char}
    (hc : isAsciiLetter c = true) (hw1 : ∀ x ∈ w1, isPySpace x = true)
    (hk : k ≠ []) (hka : ∀ x ∈ k, isMathClass x = true) :
    matchB (c :: (w1 ++ '=' :: k)) = some (c :: (w1 ++ '=' :: k), []) := by
  have hstop : ('=' :: k : List Char) = [] ∨
      ∃ y t, ('=' :: k : List Char) = y :: t ∧ isPySpace y = false :=
    Or.inr ⟨'=', k, rfl, by decide⟩
  obtain ⟨ht1, hd1⟩ := scan_block hw1 hstop
  obtain ⟨ht2, hd2⟩ := takeWhile_all hka
  simp only [matchB]
  rw [if_pos hc, ht1, hd1]
  show (if (List.takeWhile isMathClass k).isEmpty = true then none
      else some (c :: (w1 ++ '=' :: List.takeWhile isMathClass k),
        List.dropWhile isMathClass k)) = some (c :: (w1 ++ '=' :: k), [])
  rw [ht2, hd2]
  simp only [List.isEmpty_iff]
  rw [if_neg hk]

theorem matchA_none_of_head {c : Char} {t : List Char} (h : isPyDigit c = false) :
    matchA (c :: t) = none := by
  simp only [matchA, List.takeWhile_cons, h]
  simp

theorem tryMatch_cases {cs m r : List Char} (h : tryMatch cs = some (m, r)) :
    matchA cs = some (m, r) ∨ matchB cs = some (m, r) := by
  unfold tryMatch at h
  by_cases ha : (matchA cs).isSome
  · obtain ⟨p, hp⟩ := Option.isSome_iff_exists.mp ha
    rw [hp] at h
    simp only [Option.orElse] at h
    rw [hp]
    exact Or.inl h
  · have hnone : matchA cs = none := Option.not_isSome_iff_eq_none.mp ha
    rw [hnone] at h
    simp only [Option.orElse, Option.none_orElse] at h
    exact Or.inr h

theorem tryMatch_of_matchA {cs m r : List Char} (h : matchA cs = some (m, r)) :
    tryMatch cs = some (m, r) := by
  unfold tryMatch
  rw [h]
  rfl

theorem tryMatch_of_matchB {cs m r : List Char} (hA : matchA cs = none)
    (h : matchB cs = some (m, r)) : tryMatch cs = some (m, r) := by
  unfold tryMatch
  rw [hA]
  simp only [Option.orElse, Option.none_orElse]
  exact h

theorem chunksRun_single_match {c : Char} {t : List Char}
    (h : tryMatch (c :: t) = some (c :: t, [])) :
    mathChunks (c :: t) = [(true, c :: t)] := by
  rw [mathChunks, chunksRun_cons, h]
  dsimp only
  rw [chunksRun_nil]
  simp [closeGap]

theorem chunks_true_match_aux : ∀ (n : Nat) (cs g : List Char), cs.length ≤ n →
    ∀ p ∈ chunksRun g cs, p.1 = true → ∃ s r, tryMatch s = some (p.2, r) := by
  intro n
  induction n with
  | zero =>
    intro cs g h p hp htrue
    have : cs = [] := List.length_eq_zero.mp (Nat.le_zero.mp h)
    subst this
    rw [chunksRun_nil, closeGap] at hp
    split at hp
    · simp at hp
    · simp only [List.mem_singleton] at hp
      subst hp
      simp at htrue
  | succ n ih =>
    intro cs g h p hp htrue
    cases cs with
    | nil =>
      rw [chunksRun_nil, closeGap] at hp
      split at hp
      · simp at hp
      · simp only [List.mem_singleton] at hp
        subst hp
        simp at htrue
    | cons c cs' =>
      rw [chunksRun_cons] at hp
      rcases hm : tryMatch (c :: cs') with - | ⟨m, r⟩
      · rw [hm] at hp
        dsimp only at hp
        exact ih cs' (c :: g) (by simp only [List.length_cons] at h; omega) p hp htrue
      · rw [hm] at hp
        dsimp only at hp
        have hr := tryMatch_rest_lt hm
        simp only [List.length_cons] at hr h
        rw [closeGap] at hp
        split at hp
        · rcases List.mem_cons.mp hp with hp1 | hp2
          · subst hp1
            exact ⟨c :: cs', r, hm⟩
          · exact ih r [] (by omega) p hp2 htrue
        · rcases List.mem_cons.mp hp with hp1 | hp3
          · subst hp1
            simp at htrue
          · rcases List.mem_cons.mp hp3 with hp1 | hp2
            · subst hp1
              exact ⟨c :: cs', r, hm⟩
            · exact ih r [] (by omega) p hp2 htrue

theorem pyStrip_B {c : Char} {w1 k : List Char} (hc : isAsciiLetter c = true) :
    pyStrip (c :: (w1 ++ '=' :: k)) = c :: (w1 ++ '=' :: rstrip k) := by
  unfold pyStrip
  rw [List.dropWhile_cons, not_space_of_letter hc]
  simp only [Bool.false_eq_true, if_false]
  unfold rstrip
  have hrev : (c :: (w1 ++ '=' :: k)).reverse =
      k.reverse ++ '=' :: (w1.reverse ++ [c]) := by
    simp
  rw [hrev, dropWhile_append_stop (by decide : isPySpace '=' = false)]
  simp

/-- Claim C9, counterexample to the claim as stated: on the input `x = `
(trailing space) the pattern matches the whole string — the class
`[\d\+\-\*/\s]+` after `=` accepts the lone space — so the first pass emits
the single Math segment `x =`.  Rejoining the contents gives `x =`, on
which the pattern no longer matches anywhere (nothing follows `=`), so
re-segmentation returns a single Normal segment: the math span disappears
and its classification is not stable. -/
theorem claim_C9_counterexample :
    split_input_by_math_expressions "x = ".data =
      [Segment.mk SegKind.math "x =".data] ∧
    rejoinContents (split_input_by_math_expressions "x = ".data) = "x =".data ∧
    split_input_by_math_expressions
        (rejoinContents (split_input_by_math_expressions "x = ".data)) =
      [Segment.mk SegKind.normal "x =".data] := by
  decide

/-- Claim C9, amended: the stable core of the idempotence property holds
span-by-span — every Math segment of a segmentation either re-segments to
exactly itself (running `split_input_by_math_expressions` on its content
yields that one Math segment again, so its classification is stable), or is
a degenerate assignment match whose content ends in `=` (a letter-`=` match
whose right-hand side was pure whitespace, which trimming destroys).  The
claim as stated — over the space-rejoined concatenation — fails precisely
at the degenerate case, see the counterexample. -/
theorem claim_C9_amended (text : List Char) (s : Segment)
    (hs : s ∈ split_input_by_math_expressions text)
    (hk : s.kind = SegKind.math) :
    s.content.getLast? = some '=' ∨
      split_input_by_math_expressions s.content = [s] := by
  rw [split_input_by_math_expressions] at hs
  obtain ⟨p, hp, hemit⟩ := List.mem_filterMap.mp hs
  obtain ⟨hkind, hcontent, hne⟩ := emitSeg_some hemit
  have hp1 : p.1 = true := by
    rcases hb : p.1
    · rw [hb] at hkind
      simp only [Bool.false_eq_true, if_false] at hkind
      rw [hkind] at hk
      exact absurd hk (by simp)
    · rfl
  obtain ⟨u, r, hum⟩ :=
    chunks_true_match_aux text.length text [] (Nat.le_refl _) p hp hp1
  obtain ⟨sk, sc⟩ := s
  simp only at hkind hcontent hk ⊢
  rcases tryMatch_cases hum with hA | hB
  · -- the piece is a digit-operator-digit match
    obtain ⟨d1, w1, c, w2, d2, hm, hd1, hd2, ha1, hw1, hc, hw2, ha2⟩ :=
      matchA_struct hA
    have hstrip : pyStrip p.2 = p.2 := by
      apply pyStrip_eq_self_of_ends
      · intro x hx
        rw [hm] at hx
        cases d1 with
        | nil => exact absurd rfl hd1
        | cons z t =>
          simp only [List.cons_append, List.head?_cons, Option.some.injEq] at hx
          rw [← hx]
          exact not_space_of_digit (ha1 z (List.mem_cons_self z t))
      · intro x hx
        rw [hm, show d1 ++ w1 ++ c :: (w2 ++ d2) = (d1 ++ w1 ++ c :: w2) ++ d2
          from by simp] at hx
        rw [List.getLast?_append_of_ne_nil _ hd2] at hx
        exact not_space_of_digit (ha2 x (List.mem_of_mem_getLast? hx))
    right
    have htm : tryMatch p.2 = some (p.2, []) := by
      rw [hm]
      exact tryMatch_of_matchA (matchA_forward hd1 ha1 hw1 hc hw2 hd2 ha2)
    have hcont : sc = p.2 := by rw [hcontent, hstrip]
    rcases hp2 : p.2 with - | ⟨c0, t0⟩
    · exfalso
      apply hne
      rw [hp2]
      rfl
    · rw [hp2] at htm hstrip
      rw [split_input_by_math_expressions, hcont, hp2, chunksRun_single_match htm]
      simp only [List.filterMap_cons, List.filterMap_nil]
      rw [show emitSeg (true, c0 :: t0) = some (Segment.mk SegKind.math (c0 :: t0))
        from by simp [emitSeg, hstrip]]
      rw [hk]
  · -- the piece is a letter-equals match
    obtain ⟨c, w1, k, hm, hc, hw1, hka, hkne⟩ := matchB_struct hB
    have hstrip : pyStrip p.2 = c :: (w1 ++ '=' :: rstrip k) := by
      rw [hm]
      exact pyStrip_B hc
    rcases hk0 : rstrip k with - | ⟨k0, kt⟩
    · left
      rw [hcontent, hstrip, hk0,
        show c :: (w1 ++ ['=']) = (c :: w1) ++ ['='] from rfl]
      exact List.getLast?_concat _
    · right
      have hka9 : ∀ x ∈ k0 :: kt, isMathClass x = true := by
        intro x hx
        apply hka
        apply mem_rstrip
        rw [hk0]
        exact hx
      have htm : tryMatch (c :: (w1 ++ '=' :: (k0 :: kt))) =
          some (c :: (w1 ++ '=' :: (k0 :: kt)), []) :=
        tryMatch_of_matchB (matchA_none_of_head (not_digit_of_letter hc))
          (matchB_forward hc hw1 (by simp) hka9)
      have hcont : sc = c :: (w1 ++ '=' :: (k0 :: kt)) := by
        rw [hcontent, hstrip, hk0]
      have hstrip2 : pyStrip (c :: (w1 ++ '=' :: (k0 :: kt))) =
          c :: (w1 ++ '=' :: (k0 :: kt)) := by
        apply pyStrip_eq_self_of_ends
        · intro x hx
          simp only [List.head?_cons, Option.some.injEq] at hx
          subst hx
          exact not_space_of_letter hc
        · intro x hx
          rw [show c :: (w1 ++ '=' :: (k0 :: kt)) =
            (c :: (w1 ++ ['='])) ++ (k0 :: kt) from by simp] at hx
          rw [List.getLast?_append_of_ne_nil _ (by simp)] at hx
          apply rstrip_getLast_not_space
          rw [hk0]
          exact hx
      rw [split_input_by_math_expressions, hcont, chunksRun_single_match htm]
      simp only [List.filterMap_cons, List.filterMap_nil]
      rw [show emitSeg (true, c :: (w1 ++ '=' :: (k0 :: kt))) =
        some (Segment.mk SegKind.math (c :: (w1 ++ '=' :: (k0 :: kt))))
        from by simp [emitSeg, hstrip2]]
      rw [hk]

/-- Claim C9 amended, witness: the Math segment `2+2` of
`hello 2+2 world` re-segments to exactly itself. -/
theorem claim_C9_amended_witness :
    Segment.mk SegKind.math "2+2".data ∈
      split_input_by_math_expressions "hello 2+2 world".data ∧
    ((Segment.mk SegKind.math "2+2".data).content.getLast? = some '=' ∨
      split_input_by_math_expressions
          (Segment.mk SegKind.math "2+2".data).content =
        [Segment.mk SegKind.math "2+2".data]) :=
  ⟨by decide, claim_C9_amended ("hello 2+2 world".data)
    (Segment.mk SegKind.math "2+2".data) (by decide) (by decide)⟩

/-! ### Lexing the spelled expressions (claim C1) -/

theorem isBlank_elim {c : Char} (h : isBlank c = true) :
    c = ' ' ∨ c = '\t' ∨ c = Char.ofNat 12 := by
  simp only [isBlank, Bool.or_eq_true, decide_eq_true_eq] at h
  tauto

theorem space_of_blank {c : Char} (h : isBlank c = true) : isPySpace c = true := by
  rcases isBlank_elim h with rfl | rfl | rfl <;> decide

theorem not_digit_of_blank {c : Char} (h : isBlank c = true) : isPyDigit c = false :=
  not_digit_of_space (space_of_blank h)

theorem blank_bounds {c : Char} (h : isBlank c = true) :
    c ≠ '.' ∧ c ≠ '*' ∧ c ≠ '/' ∧ c ≠ '(' ∧ c ≠ ')' := by
  rcases isBlank_elim h with rfl | rfl | rfl <;> exact ⟨by decide, by decide, by decide,
    by decide, by decide⟩

theorem digit_bounds {c : Char} (h : isPyDigit c = true) :
    c ≠ '.' ∧ c ≠ '*' ∧ c ≠ '/' ∧ c ≠ '(' ∧ c ≠ ')' := by
  obtain ⟨-, -, -, h3, h4, h5, h6, h7⟩ := digit_not_special h
  exact ⟨h7, h3, h4, h5, h6⟩

theorem blank_of_space_charOK {c : Char}
    (hc : isPyDigit c = true ∨ c = '.' ∨ isOpChar c = true ∨ c = '(' ∨ c = ')' ∨
      isBlank c = true)
    (hs : isPySpace c = true) : isBlank c = true := by
  rcases hc with h | rfl | h | rfl | rfl | h
  · rw [not_space_of_digit h] at hs
    exact absurd hs (by simp)
  · exact absurd hs (by decide)
  · rw [not_space_of_op h] at hs
    exact absurd hs (by simp)
  · exact absurd hs (by decide)
  · exact absurd hs (by decide)
  · exact h

theorem allowed_of_charOK {c : Char}
    (hc : isPyDigit c = true ∨ c = '.' ∨ isOpChar c = true ∨ c = '(' ∨ c = ')' ∨
      isBlank c = true) : allowedChar c = true := by
  rcases hc with h | rfl | h | rfl | rfl | h
  · simp [allowedChar, h]
  · decide
  · simp [allowedChar, h]
  · decide
  · decide
  · simp [allowedChar, space_of_blank h]

theorem scan_append_split {p : Char → Bool} (a b : List Char) :
    ((∀ c ∈ a, p c = true) ∧ (a ++ b).takeWhile p = a ++ b.takeWhile p ∧
      (a ++ b).dropWhile p = b.dropWhile p ∧ a.takeWhile p = a ∧ a.dropWhile p = []) ∨
    (a.dropWhile p ≠ [] ∧ (a ++ b).takeWhile p = a.takeWhile p ∧
      (a ++ b).dropWhile p = a.dropWhile p ++ b) := by
  rcases hdrop : a.dropWhile p with - | ⟨y, t⟩
  · have hall : ∀ c ∈ a, p c = true := by
      intro c hc
      have ha : a = a.takeWhile p := by
        conv_lhs => rw [← List.takeWhile_append_dropWhile p a]
        rw [hdrop, List.append_nil]
      rw [ha] at hc
      exact List.mem_takeWhile_imp hc
    obtain ⟨ht, hd⟩ := takeWhile_append_of_all hall b
    obtain ⟨ht2, hd2⟩ := takeWhile_all hall
    exact Or.inl ⟨hall, ht, hd, ht2, rfl⟩
  · have hy : p y = false := dropWhile_head_false hdrop
    have ha : a = a.takeWhile p ++ y :: t := by
      conv_lhs => rw [← List.takeWhile_append_dropWhile p a]
      rw [hdrop]
    have hallt : ∀ c ∈ a.takeWhile p, p c = true := fun c hc =>
      List.mem_takeWhile_imp hc
    have hstop : (y :: (t ++ b) : List Char) = [] ∨
        ∃ z u, (y :: (t ++ b) : List Char) = z :: u ∧ p z = false :=
      Or.inr ⟨y, t ++ b, rfl, hy⟩
    obtain ⟨ht, hd⟩ := scan_block hallt hstop
    have hab : a ++ b = a.takeWhile p ++ (y :: (t ++ b)) := by
      conv_lhs => rw [ha]
      simp
    refine Or.inr ⟨by simp [hdrop], ?_, ?_⟩
    · rw [hab, ht]
    · rw [hab, hd]
      simp

theorem lexNum_int {d : List Char} (hne : d ≠ [])
    (hdig : ∀ c ∈ d, isPyDigit c = true)
    (hzero : d.headI = '0' → ∀ c ∈ d, c = '0')
    (rest : List Char)
    (hrest : ∀ c, rest.head? = some c → isPyDigit c = false ∧ c ≠ '.') :
    lexNum (d ++ rest) = some ((digitsToNat d : ℚ), rest) := by
  have hstop : rest = [] ∨ ∃ y t, rest = y :: t ∧ isPyDigit y = false := by
    cases rest with
    | nil => exact Or.inl rfl
    | cons y t => exact Or.inr ⟨y, t, rfl, (hrest y rfl).1⟩
  obtain ⟨ht, hd⟩ := scan_block hdig hstop
  simp only [lexNum, ht, hd]
  have hguard : ¬(d.headI = '0' && d.any fun c => decide ¬c = '0') = true := by
    simp only [Bool.and_eq_true, List.any_eq_true, decide_eq_true_eq, not_and]
    intro hh
    rintro ⟨c, hc, hcne⟩
    exact hcne (hzero hh c hc)
  split
  · exact absurd rfl (hrest '.' rfl).2
  · simp only [List.isEmpty_iff]
    rw [if_neg hne, if_neg hguard]

theorem lexNum_dec {d1 d2 : List Char} (hne : d1 ≠ [] ∨ d2 ≠ [])
    (hdig1 : ∀ c ∈ d1, isPyDigit c = true) (hdig2 : ∀ c ∈ d2, isPyDigit c = true)
    (rest : List Char)
    (hrest : ∀ c, rest.head? = some c → isPyDigit c = false ∧ c ≠ '.') :
    lexNum ((d1 ++ '.' :: d2) ++ rest) =
      some ((digitsToNat d1 : ℚ) + (digitsToNat d2 : ℚ) / (10 : ℚ) ^ d2.length,
        rest) := by
  have hstop : rest = [] ∨ ∃ y t, rest = y :: t ∧ isPyDigit y = false := by
    cases rest with
    | nil => exact Or.inl rfl
    | cons y t => exact Or.inr ⟨y, t, rfl, (hrest y rfl).1⟩
  have hstop1 : ('.' :: (d2 ++ rest) : List Char) = [] ∨
      ∃ y t, ('.' :: (d2 ++ rest) : List Char) = y :: t ∧ isPyDigit y = false :=
    Or.inr ⟨'.', d2 ++ rest, rfl, by decide⟩
  obtain ⟨ht1, hd1⟩ := scan_block hdig1 hstop1
  obtain ⟨ht2, hd2⟩ := scan_block hdig2 hstop
  have hsplit : (d1 ++ '.' :: d2) ++ rest = d1 ++ ('.' :: (d2 ++ rest)) := by simp
  rw [hsplit]
  simp only [lexNum, ht1, hd1, ht2, hd2]
  have hguard : ¬(d1.isEmpty && d2.isEmpty) = true := by
    simp only [Bool.and_eq_true, List.isEmpty_iff, not_and]
    rcases hne with h | h
    · intro h1
      exact absurd h1 h
    · intro h1 h2
      exact h h2
  rw [if_neg hguard]

/-- Lexing a decimal literal followed by anything that cannot extend it:
`lexNum` consumes exactly the literal and returns its value. -/
theorem lexNum_decLit {s : List Char} {q : ℚ} (hdl : DecLit s q)
    (rest : List Char)
    (hrest : ∀ c, rest.head? = some c → isPyDigit c = false ∧ c ≠ '.') :
    lexNum (s ++ rest) = some (q, rest) := by
  cases hdl with
  | int d hne hdig hzero => exact lexNum_int hne hdig hzero rest hrest
  | dec d1 d2 hne hdig1 hdig2 => exact lexNum_dec hne hdig1 hdig2 rest hrest

/-- The `lexNum` equation when the digit run is followed by a decimal
point. -/
theorem lexNum_dot {y r2 : List Char} (hy : y.dropWhile isPyDigit = '.' :: r2) :
    lexNum y = (if (y.takeWhile isPyDigit).isEmpty && (r2.takeWhile isPyDigit).isEmpty
      then none
      else some ((digitsToNat (y.takeWhile isPyDigit) : ℚ) +
        (digitsToNat (r2.takeWhile isPyDigit) : ℚ) /
          (10 : ℚ) ^ (r2.takeWhile isPyDigit).length,
        r2.dropWhile isPyDigit)) := by
  simp only [lexNum]
  rw [hy]
  rfl

/-- The `lexNum` equation when the digit run is not followed by a decimal
point. -/
theorem lexNum_nodot {y : List Char}
    (hy : ∀ r2, y.dropWhile isPyDigit ≠ '.' :: r2) :
    lexNum y = (if (y.takeWhile isPyDigit).isEmpty then none
      else if (y.takeWhile isPyDigit).headI = '0' &&
          (y.takeWhile isPyDigit).any (fun c => c ≠ '0') then none
      else some ((digitsToNat (y.takeWhile isPyDigit) : ℚ), y.dropWhile isPyDigit)) := by
  simp only [lexNum]

/-- Appending a suffix that cannot extend a numeric literal commutes with
`lexNum`. -/
theorem lexNum_append {w : List Char}
    (hw : ∀ c, w.head? = some c → isPyDigit c = false ∧ c ≠ '.') (y : List Char) :
    lexNum (y ++ w) = (lexNum y).map (fun p => (p.1, p.2 ++ w)) := by
  have hwscan : w.takeWhile isPyDigit = [] ∧ w.dropWhile isPyDigit = w := by
    cases w with
    | nil => simp
    | cons a t =>
      rw [List.takeWhile_cons, List.dropWhile_cons, (hw a rfl).1]
      simp
  rcases @scan_append_split isPyDigit y w with ⟨hall, ht, hd, ht2, hd2⟩ | ⟨hne, ht, hd⟩
  · have hLno : ∀ r2, (y ++ w).dropWhile isPyDigit ≠ '.' :: r2 := by
      intro r2 hcon
      rw [hd, hwscan.2] at hcon
      have : w.head? = some '.' := by rw [hcon]; rfl
      exact absurd rfl (hw '.' this).2
    have hRno : ∀ r2, y.dropWhile isPyDigit ≠ '.' :: r2 := by
      intro r2 hcon
      rw [hd2] at hcon
      exact absurd hcon (by simp)
    rw [lexNum_nodot hLno, lexNum_nodot hRno, ht, ht2, hwscan.1, List.append_nil,
      hd, hd2, hwscan.2]
    split
    · simp
    · split
      · simp
      · simp
  · rcases hr1 : y.dropWhile isPyDigit with - | ⟨b, r1t⟩
    · exact absurd hr1 hne
    · rw [hr1] at hd
      have hdL : (y ++ w).dropWhile isPyDigit = b :: (r1t ++ w) := by
        rw [hd]
        simp
      by_cases hb : b = '.'
      · subst hb
        rw [lexNum_dot hdL, lexNum_dot hr1, ht]
        rcases @scan_append_split isPyDigit r1t w with
          ⟨hall2, ht2b, hd2b, ht2c, hd2c⟩ | ⟨hne2, ht2b, hd2b⟩
        · rw [ht2b, hd2b, ht2c, hd2c, hwscan.1, hwscan.2, List.append_nil]
          split
          · simp
          · simp
        · rw [ht2b, hd2b]
          split
          · simp
          · simp
      · have hLno : ∀ r2, (y ++ w).dropWhile isPyDigit ≠ '.' :: r2 := by
          intro r2 hcon
          rw [hdL] at hcon
          have hh := congrArg List.head? hcon
          simp only [List.head?_cons, Option.some.injEq] at hh
          exact hb hh
        have hRno : ∀ r2, y.dropWhile isPyDigit ≠ '.' :: r2 := by
          intro r2 hcon
          rw [hr1] at hcon
          have hh := congrArg List.head? hcon
          simp only [List.head?_cons, Option.some.injEq] at hh
          exact hb hh
        rw [lexNum_nodot hLno, lexNum_nodot hRno, ht, hdL, hr1]
        split
        · simp
        · split
          · simp
          · simp

theorem tokenizeD_cons_blank {c : Char} (hc : isBlank c = true) (d : Nat)
    (cs : List Char) : tokenizeD d (c :: cs) = tokenizeD d cs := by
  show tokenizeF (cs.length + 1) d (c :: cs) = tokenizeF cs.length d cs
  simp only [tokenizeF, hc, if_true]

theorem tokenizeD_cons_nl {c : Char} (hc : c = '\n' ∨ c = '\r') (d : Nat)
    (cs : List Char) :
    tokenizeD d (c :: cs) = if 0 < d then tokenizeD d cs else none := by
  have hb : isBlank c = false := by rcases hc with rfl | rfl <;> decide
  show tokenizeF (cs.length + 1) d (c :: cs) = _
  simp only [tokenizeF, hb, Bool.false_eq_true, if_false]
  rw [if_pos ?_]
  · rfl
  · rcases hc with rfl | rfl <;> simp

theorem tokenizeD_cons_plus (d : Nat) (cs : List Char) :
    tokenizeD d ('+' :: cs) = (tokenizeD d cs).map (Tok.plus :: ·) := rfl

theorem tokenizeD_cons_minus (d : Nat) (cs : List Char) :
    tokenizeD d ('-' :: cs) = (tokenizeD d cs).map (Tok.minus :: ·) := rfl

theorem tokenizeD_cons_lpar (d : Nat) (cs : List Char) :
    tokenizeD d ('(' :: cs) = (tokenizeD (d + 1) cs).map (Tok.lpar :: ·) := rfl

theorem tokenizeD_cons_rpar (d : Nat) (cs : List Char) :
    tokenizeD d (')' :: cs) = (tokenizeD (d - 1) cs).map (Tok.rpar :: ·) := rfl

theorem tokenizeD_cons_star {cs : List Char} (h : ¬cs.head? = some '*')
    (d : Nat) : tokenizeD d ('*' :: cs) = (tokenizeD d cs).map (Tok.star :: ·) := by
  show (if cs.head? = some '*' then (tokenizeF cs.length d cs.tail).map (Tok.dstar :: ·)
    else (tokenizeF cs.length d cs).map (Tok.star :: ·)) =
    (tokenizeF cs.length d cs).map (Tok.star :: ·)
  rw [if_neg h]

theorem tokenizeD_cons_slash {cs : List Char} (h : ¬cs.head? = some '/')
    (d : Nat) : tokenizeD d ('/' :: cs) = (tokenizeD d cs).map (Tok.slash :: ·) := by
  show (if cs.head? = some '/' then (tokenizeF cs.length d cs.tail).map (Tok.dslash :: ·)
    else (tokenizeF cs.length d cs).map (Tok.slash :: ·)) =
    (tokenizeF cs.length d cs).map (Tok.slash :: ·)
  rw [if_neg h]

theorem tokenizeD_cons_dstar (d : Nat) (cs : List Char) :
    tokenizeD d ('*' :: '*' :: cs) = (tokenizeD d cs).map (Tok.dstar :: ·) := by
  show (tokenizeF (cs.length + 1) d cs).map (Tok.dstar :: ·) = _
  rw [tokenizeF_congr (cs.length + 1) cs.length d cs (by omega) (Nat.le_refl _)]
  rfl

theorem tokenizeD_cons_dslash (d : Nat) (cs : List Char) :
    tokenizeD d ('/' :: '/' :: cs) = (tokenizeD d cs).map (Tok.dslash :: ·) := by
  show (tokenizeF (cs.length + 1) d cs).map (Tok.dslash :: ·) = _
  rw [tokenizeF_congr (cs.length + 1) cs.length d cs (by omega) (Nat.le_refl _)]
  rfl

theorem numStart_bounds {c : Char} (hc : isPyDigit c = true ∨ c = '.') :
    isBlank c = false ∧ ¬(c = '\n' ∨ c = '\r') ∧ ¬c = '+' ∧ ¬c = '-' ∧ ¬c = '*' ∧
      ¬c = '/' ∧ ¬c = '(' ∧ ¬c = ')' := by
  rcases hc with h | rfl
  · refine ⟨?_, ?_, ?_, ?_, ?_, ?_, ?_, ?_⟩
    · rcases hb : isBlank c with - | -
      · rfl
      · rw [not_digit_of_blank hb] at h
        exact absurd h (by simp)
    · rintro (rfl | rfl) <;> exact absurd h (by decide)
    · rintro rfl
      exact absurd h (by decide)
    · rintro rfl
      exact absurd h (by decide)
    · rintro rfl
      exact absurd h (by decide)
    · rintro rfl
      exact absurd h (by decide)
    · rintro rfl
      exact absurd h (by decide)
    · rintro rfl
      exact absurd h (by decide)
  · exact ⟨by decide, by rintro (h | h) <;> exact absurd h (by decide), by decide,
      by decide, by decide, by decide, by decide, by decide⟩

theorem tokenizeD_cons_num {c : Char} {cs rest : List Char} {q : ℚ}
    (hc : isPyDigit c = true ∨ c = '.')
    (hlex : lexNum (c :: cs) = some (q, rest)) (d : Nat) :
    tokenizeD d (c :: cs) = (tokenizeD d rest).map (Tok.num q :: ·) := by
  obtain ⟨h1, h2, h3, h4, h5, h6, h7, h8⟩ := numStart_bounds hc
  have hcond : (isPyDigit c || c = '.') = true := by
    rcases hc with h | rfl
    · simp [h]
    · simp
  show tokenizeF (cs.length + 1) d (c :: cs) = _
  simp only [tokenizeF, h1, Bool.false_eq_true, if_false]
  rw [if_neg (by simpa using h2), if_neg h3, if_neg h4, if_neg h5, if_neg h6,
    if_neg h7, if_neg h8, if_pos hcond, hlex]
  have hlt := lexNum_rest_lt hlex
  simp only [List.length_cons] at hlt
  show (tokenizeF cs.length d rest).map (Tok.num q :: ·) = _
  rw [tokenizeF_congr cs.length rest.length d rest (by omega) (Nat.le_refl _)]
  rfl

theorem tokenizeD_cons_other {c : Char} (h1 : isBlank c = false)
    (h2 : ¬(c = '\n' ∨ c = '\r')) (h3 : ¬c = '+') (h4 : ¬c = '-') (h5 : ¬c = '*')
    (h6 : ¬c = '/') (h7 : ¬c = '(') (h8 : ¬c = ')')
    (h9 : isPyDigit c = false) (h10 : ¬c = '.') (d : Nat) (cs : List Char) :
    tokenizeD d (c :: cs) = none := by
  show tokenizeF (cs.length + 1) d (c :: cs) = none
  simp only [tokenizeF, h1, Bool.false_eq_true, if_false]
  rw [if_neg (by simpa using h2), if_neg h3, if_neg h4, if_neg h5, if_neg h6,
    if_neg h7, if_neg h8, if_neg (by simp [h9, h10])]

theorem tokenizeD_leading_blanks : ∀ (w : List Char), (∀ c ∈ w, isBlank c = true) →
    ∀ (d : Nat) (cs : List Char), tokenizeD d (w ++ cs) = tokenizeD d cs := by
  intro w
  induction w with
  | nil =>
    intro _ d cs
    rfl
  | cons c t ih =>
    intro hw d cs
    rw [List.cons_append, tokenizeD_cons_blank (hw c (List.mem_cons_self c t)),
      ih (fun x hx => hw x (List.mem_cons_of_mem c hx))]

theorem tokenizeD_append_blanks : ∀ (n : Nat) (x w : List Char) (d : Nat),
    x.length ≤ n → (∀ c ∈ w, isBlank c = true) →
    tokenizeD d (x ++ w) = tokenizeD d x := by
  intro n
  induction n with
  | zero =>
    intro x w d hx hw
    have : x = [] := List.length_eq_zero.mp (Nat.le_zero.mp hx)
    subst this
    rw [List.nil_append]
    have := tokenizeD_leading_blanks w hw d []
    rw [List.append_nil] at this
    exact this
  | succ n ih =>
    intro x w d hx hw
    cases x with
    | nil =>
      rw [List.nil_append]
      have := tokenizeD_leading_blanks w hw d []
      rw [List.append_nil] at this
      exact this
    | cons c x' =>
      simp only [List.length_cons] at hx
      have hx' : x'.length ≤ n := by omega
      rcases hblank : isBlank c with - | -
      case true =>
        rw [List.cons_append, tokenizeD_cons_blank hblank,
          tokenizeD_cons_blank hblank, ih x' w d hx' hw]
      case false =>
      by_cases hnl : c = '\n' ∨ c = '\r'
      · rw [List.cons_append, tokenizeD_cons_nl hnl, tokenizeD_cons_nl hnl]
        rcases Nat.eq_zero_or_pos d with rfl | hd
        · simp
        · rw [if_pos hd, if_pos hd, ih x' w d hx' hw]
      by_cases hplus : c = '+'
      · subst hplus
        rw [List.cons_append, tokenizeD_cons_plus, tokenizeD_cons_plus,
          ih x' w d hx' hw]
      by_cases hminus : c = '-'
      · subst hminus
        rw [List.cons_append, tokenizeD_cons_minus, tokenizeD_cons_minus,
          ih x' w d hx' hw]
      by_cases hlpar : c = '('
      · subst hlpar
        rw [List.cons_append, tokenizeD_cons_lpar, tokenizeD_cons_lpar,
          ih x' w (d + 1) hx' hw]
      by_cases hrpar : c = ')'
      · subst hrpar
        rw [List.cons_append, tokenizeD_cons_rpar, tokenizeD_cons_rpar,
          ih x' w (d - 1) hx' hw]
      by_cases hstar : c = '*'
      · subst hstar
        cases x' with
        | nil =>
          have hwh : ¬(w.head? = some '*') := by
            intro hcon
            cases w with
            | nil => exact absurd hcon (by simp)
            | cons a t =>
              simp only [List.head?_cons, Option.some.injEq] at hcon
              subst hcon
              exact absurd (hw '*' (List.mem_cons_self _ _)) (by decide)
          rw [List.cons_append, List.nil_append, tokenizeD_cons_star hwh,
            tokenizeD_cons_star (by simp)]
          have := tokenizeD_leading_blanks w hw d []
          rw [List.append_nil] at this
          rw [show tokenizeD d w = tokenizeD d ([] : List Char) from this]
        | cons y t =>
          by_cases hy : y = '*'
          · subst hy
            show tokenizeD d ('*' :: ('*' :: (t ++ w))) = tokenizeD d ('*' :: ('*' :: t))
            rw [tokenizeD_cons_dstar, tokenizeD_cons_dstar,
              ih t w d (by simp only [List.length_cons] at hx'; omega) hw]
          · have hh1 : ¬((y :: t ++ w).head? = some '*') := by
              simp only [List.cons_append, List.head?_cons, Option.some.injEq]
              exact hy
            have hh2 : ¬((y :: t).head? = some '*') := by
              simp only [List.head?_cons, Option.some.injEq]
              exact hy
            rw [List.cons_append, tokenizeD_cons_star hh1, tokenizeD_cons_star hh2,
              ih (y :: t) w d hx' hw]
      by_cases hslash : c = '/'
      · subst hslash
        cases x' with
        | nil =>
          have hwh : ¬(w.head? = some '/') := by
            intro hcon
            cases w with
            | nil => exact absurd hcon (by simp)
            | cons a t =>
              simp only [List.head?_cons, Option.some.injEq] at hcon
              subst hcon
              exact absurd (hw '/' (List.mem_cons_self _ _)) (by decide)
          rw [List.cons_append, List.nil_append, tokenizeD_cons_slash hwh,
            tokenizeD_cons_slash (by simp)]
          have := tokenizeD_leading_blanks w hw d []
          rw [List.append_nil] at this
          rw [show tokenizeD d w = tokenizeD d ([] : List Char) from this]
        | cons y t =>
          by_cases hy : y = '/'
          · subst hy
            show tokenizeD d ('/' :: ('/' :: (t ++ w))) = tokenizeD d ('/' :: ('/' :: t))
            rw [tokenizeD_cons_dslash, tokenizeD_cons_dslash,
              ih t w d (by simp only [List.length_cons] at hx'; omega) hw]
          · have hh1 : ¬((y :: t ++ w).head? = some '/') := by
              simp only [List.cons_append, List.head?_cons, Option.some.injEq]
              exact hy
            have hh2 : ¬((y :: t).head? = some '/') := by
              simp only [List.head?_cons, Option.some.injEq]
              exact hy
            rw [List.cons_append, tokenizeD_cons_slash hh1, tokenizeD_cons_slash hh2,
              ih (y :: t) w d hx' hw]
      by_cases hnum : isPyDigit c = true ∨ c = '.'
      · have hwh : ∀ a, w.head? = some a → isPyDigit a = false ∧ a ≠ '.' := by
          intro a ha
          cases w with
          | nil => exact absurd ha (by simp)
          | cons b t =>
            simp only [List.head?_cons, Option.some.injEq] at ha
            subst ha
            have hb := hw b (List.mem_cons_self _ _)
            exact ⟨not_digit_of_blank hb, (blank_bounds hb).1⟩
        have hcond : (isPyDigit c || c = '.') = true := by
          rcases hnum with h | h
          · simp [h]
          · subst h
            decide
        rcases hlex : lexNum (c :: x') with - | ⟨q, rest⟩
        · have hlexw : lexNum (c :: (x' ++ w)) = none := by
            rw [show c :: (x' ++ w) = (c :: x') ++ w from rfl, lexNum_append hwh, hlex]
            rfl
          obtain ⟨b1, b2, b3, b4, b5, b6, b7, b8⟩ := numStart_bounds hnum
          have hL : tokenizeD d (c :: (x' ++ w)) = none := by
            show tokenizeF ((x' ++ w).length + 1) d (c :: (x' ++ w)) = none
            simp only [tokenizeF, b1, Bool.false_eq_true, if_false]
            rw [if_neg (by simpa using b2), if_neg b3, if_neg b4, if_neg b5,
              if_neg b6, if_neg b7, if_neg b8, if_pos hcond, hlexw]
          have hR : tokenizeD d (c :: x') = none := by
            show tokenizeF (x'.length + 1) d (c :: x') = none
            simp only [tokenizeF, b1, Bool.false_eq_true, if_false]
            rw [if_neg (by simpa using b2), if_neg b3, if_neg b4, if_neg b5,
              if_neg b6, if_neg b7, if_neg b8, if_pos hcond, hlex]
          rw [List.cons_append, hL, hR]
        · have hlexw : lexNum (c :: (x' ++ w)) = some (q, rest ++ w) := by
            rw [show c :: (x' ++ w) = (c :: x') ++ w from rfl, lexNum_append hwh, hlex]
            rfl
          have hlt := lexNum_rest_lt hlex
          simp only [List.length_cons] at hlt
          rw [List.cons_append, tokenizeD_cons_num hnum hlexw,
            tokenizeD_cons_num hnum hlex, ih rest w d (by omega) hw]
      · push_neg at hnum
        rw [List.cons_append,
          tokenizeD_cons_other hblank hnl hplus hminus hstar hslash hlpar hrpar
            (by simpa using hnum.1) hnum.2,
          tokenizeD_cons_other hblank hnl hplus hminus hstar hslash hlpar hrpar
            (by simpa using hnum.1) hnum.2]

theorem decLit_cases {s : List Char} {q : ℚ} (h : DecLit s q) :
    (s ≠ [] ∧ (∀ c ∈ s, isPyDigit c = true) ∧ (s.headI = '0' → ∀ c ∈ s, c = '0') ∧
      q = (digitsToNat s : ℚ)) ∨
    (∃ d1 d2, s = d1 ++ '.' :: d2 ∧ (d1 ≠ [] ∨ d2 ≠ []) ∧
      (∀ c ∈ d1, isPyDigit c = true) ∧ (∀ c ∈ d2, isPyDigit c = true) ∧
      q = (digitsToNat d1 : ℚ) + (digitsToNat d2 : ℚ) / (10 : ℚ) ^ d2.length) := by
  cases h with
  | int d hne hdig hzero => exact Or.inl ⟨hne, hdig, hzero, rfl⟩
  | dec d1 d2 hne h1 h2 => exact Or.inr ⟨d1, d2, rfl, hne, h1, h2, rfl⟩

theorem decLit_head {s : List Char} {q : ℚ} (h : DecLit s q) :
    ∃ c t, s = c :: t ∧ (isPyDigit c = true ∨ c = '.') := by
  rcases decLit_cases h with ⟨hne, hdig, -, -⟩ | ⟨d1, d2, heq, -, hdig1, -, -⟩
  · cases hs : s with
    | nil => exact absurd hs hne
    | cons c t =>
      refine ⟨c, t, rfl, Or.inl (hdig c ?_)⟩
      rw [hs]
      exact List.mem_cons_self c t
  · cases hd1 : d1 with
    | nil =>
      subst heq
      subst hd1
      exact ⟨'.', d2, rfl, Or.inr rfl⟩
    | cons c t =>
      subst heq
      subst hd1
      exact ⟨c, t ++ '.' :: d2, rfl, Or.inl (hdig1 c (List.mem_cons_self c t))⟩

theorem decLit_chars {s : List Char} {q : ℚ} (h : DecLit s q) :
    ∀ c ∈ s, isPyDigit c = true ∨ c = '.' := by
  rcases decLit_cases h with ⟨-, hdig, -, -⟩ | ⟨d1, d2, heq, -, hdig1, hdig2, -⟩
  · exact fun c hc => Or.inl (hdig c hc)
  · subst heq
    intro c hc
    rcases List.mem_append.mp hc with hc | hc
    · exact Or.inl (hdig1 c hc)
    · rcases List.mem_cons.mp hc with rfl | hc
      · exact Or.inr rfl
      · exact Or.inl (hdig2 c hc)

theorem decLit_ne_nil {s : List Char} {q : ℚ} (h : DecLit s q) : s ≠ [] := by
  obtain ⟨c, t, heq, -⟩ := decLit_head h
  rw [heq]
  simp

/-- First-character classification of every spelling: a digit, a decimal
point, an opening parenthesis or a blank. -/
theorem spell_head_all : ∀ n : ℕ,
    (∀ e s, SpellF e s → s.length ≤ n →
      ∃ c t, s = c :: t ∧ (isPyDigit c = true ∨ c = '.' ∨ c = '(' ∨ isBlank c = true)) ∧
    (∀ e s, SpellT e s → s.length ≤ n →
      ∃ c t, s = c :: t ∧ (isPyDigit c = true ∨ c = '.' ∨ c = '(' ∨ isBlank c = true)) ∧
    (∀ e s, SpellE e s → s.length ≤ n →
      ∃ c t, s = c :: t ∧ (isPyDigit c = true ∨ c = '.' ∨ c = '(' ∨ isBlank c = true)) := by
  intro n
  induction n with
  | zero =>
    refine ⟨?_, ?_, ?_⟩ <;> intro e s hsp hlen <;> exfalso
    · cases hsp with
      | lit q s hdl =>
        obtain ⟨c, t, heq, -⟩ := decLit_head hdl
        rw [heq] at hlen
        simp at hlen
      | paren e s hE => simp at hlen
      | padL e c s hb hf => simp at hlen
      | padR e c s hb hf => simp at hlen
    · cases hsp with
      | fac e s hf =>
        cases hf with
        | lit q s hdl =>
          obtain ⟨c, t, heq, -⟩ := decLit_head hdl
          rw [heq] at hlen
          simp at hlen
        | paren e s hE => simp at hlen
        | padL e c s hb hf2 => simp at hlen
        | padR e c s hb hf2 => simp at hlen
      | bin o l r s1 s2 hop h1 h2 => simp at hlen
    · cases hsp with
      | term e s ht =>
        cases ht with
        | fac e s hf =>
          cases hf with
          | lit q s hdl =>
            obtain ⟨c, t, heq, -⟩ := decLit_head hdl
            rw [heq] at hlen
            simp at hlen
          | paren e s hE => simp at hlen
          | padL e c s hb hf2 => simp at hlen
          | padR e c s hb hf2 => simp at hlen
        | bin o l r s1 s2 hop h1 h2 => simp at hlen
      | bin o l r s1 s2 hop h1 h2 => simp at hlen
  | succ n ih =>
    obtain ⟨ihF, ihT, ihE⟩ := ih
    have hF : ∀ e s, SpellF e s → s.length ≤ n + 1 →
        ∃ c t, s = c :: t ∧
          (isPyDigit c = true ∨ c = '.' ∨ c = '(' ∨ isBlank c = true) := by
      intro e s hsp hlen
      cases hsp with
      | lit q s hdl =>
        obtain ⟨c, t, heq, hc⟩ := decLit_head hdl
        exact ⟨c, t, heq, by tauto⟩
      | paren e s hE => exact ⟨'(', s ++ [')'], rfl, by tauto⟩
      | padL e c s hb hf => exact ⟨c, s, rfl, by tauto⟩
      | padR e c s hb hf =>
        have hlen2 : s.length ≤ n := by
          simp only [List.length_append, List.length_cons, List.length_nil] at hlen
          omega
        obtain ⟨c0, t0, heq, hc0⟩ := ihF e s hf hlen2
        exact ⟨c0, t0 ++ [c], by rw [heq]; rfl, hc0⟩
    have hT : ∀ e s, SpellT e s → s.length ≤ n + 1 →
        ∃ c t, s = c :: t ∧
          (isPyDigit c = true ∨ c = '.' ∨ c = '(' ∨ isBlank c = true) := by
      intro e s hsp hlen
      cases hsp with
      | fac e s hf => exact hF e s hf hlen
      | bin o l r s1 s2 hop h1 h2 =>
        have hlen1 : s1.length ≤ n := by
          simp only [List.length_append, List.length_cons] at hlen
          omega
        obtain ⟨c0, t0, heq, hc0⟩ := ihT l s1 h1 hlen1
        exact ⟨c0, t0 ++ opChar4 o :: s2, by rw [heq]; rfl, hc0⟩
    have hE : ∀ e s, SpellE e s → s.length ≤ n + 1 →
        ∃ c t, s = c :: t ∧
          (isPyDigit c = true ∨ c = '.' ∨ c = '(' ∨ isBlank c = true) := by
      intro e s hsp hlen
      cases hsp with
      | term e s ht => exact hT e s ht hlen
      | bin o l r s1 s2 hop h1 h2 =>
        have hlen1 : s1.length ≤ n := by
          simp only [List.length_append, List.length_cons] at hlen
          omega
        obtain ⟨c0, t0, heq, hc0⟩ := ihE l s1 h1 hlen1
        exact ⟨c0, t0 ++ opChar4 o :: s2, by rw [heq]; rfl, hc0⟩
    exact ⟨hF, hT, hE⟩

theorem opChar4_isOp (o : AOp) : isOpChar (opChar4 o) = true := by
  cases o <;> decide

/-- Character classification of every spelling: digits, the decimal point,
operators, parentheses and blanks only. -/
theorem spell_chars_all : ∀ n : ℕ,
    (∀ e s, SpellF e s → s.length ≤ n → ∀ c ∈ s,
      isPyDigit c = true ∨ c = '.' ∨ isOpChar c = true ∨ c = '(' ∨ c = ')' ∨
        isBlank c = true) ∧
    (∀ e s, SpellT e s → s.length ≤ n → ∀ c ∈ s,
      isPyDigit c = true ∨ c = '.' ∨ isOpChar c = true ∨ c = '(' ∨ c = ')' ∨
        isBlank c = true) ∧
    (∀ e s, SpellE e s → s.length ≤ n → ∀ c ∈ s,
      isPyDigit c = true ∨ c = '.' ∨ isOpChar c = true ∨ c = '(' ∨ c = ')' ∨
        isBlank c = true) := by
  intro n
  induction n with
  | zero =>
    have hnil : ∀ (s : List Char), s.length ≤ 0 → ∀ c ∈ s,
        isPyDigit c = true ∨ c = '.' ∨ isOpChar c = true ∨ c = '(' ∨ c = ')' ∨
          isBlank c = true := by
      intro s hlen c hc
      have hs : s = [] := List.length_eq_zero.mp (Nat.le_zero.mp hlen)
      subst hs
      exact absurd hc (by simp)
    exact ⟨fun e s _ hlen => hnil s hlen, fun e s _ hlen => hnil s hlen,
      fun e s _ hlen => hnil s hlen⟩
  | succ n ih =>
    obtain ⟨ihF, ihT, ihE⟩ := ih
    have hF : ∀ e s, SpellF e s → s.length ≤ n + 1 → ∀ c ∈ s,
        isPyDigit c = true ∨ c = '.' ∨ isOpChar c = true ∨ c = '(' ∨ c = ')' ∨
          isBlank c = true := by
      intro e s hsp hlen c hc
      cases hsp with
      | lit q s hdl =>
        rcases decLit_chars hdl c hc with h | h
        · exact Or.inl h
        · exact Or.inr (Or.inl h)
      | paren e s hE =>
        rcases List.mem_cons.mp hc with rfl | hc2
        · tauto
        · rcases List.mem_append.mp hc2 with hc3 | hc3
          · have hlen2 : s.length ≤ n := by
              simp only [List.length_cons, List.length_append, List.length_nil] at hlen
              omega
            exact ihE e s hE hlen2 c hc3
          · rcases List.mem_singleton.mp hc3 with rfl
            tauto
      | padL e c0 s hb hf =>
        rcases List.mem_cons.mp hc with rfl | hc2
        · tauto
        · have hlen2 : s.length ≤ n := by
            simp only [List.length_cons] at hlen
            omega
          exact ihF e s hf hlen2 c hc2
      | padR e c0 s hb hf =>
        rcases List.mem_append.mp hc with hc2 | hc2
        · have hlen2 : s.length ≤ n := by
            simp only [List.length_append, List.length_cons, List.length_nil] at hlen
            omega
          exact ihF e s hf hlen2 c hc2
        · rcases List.mem_singleton.mp hc2 with rfl
          tauto
    have hT : ∀ e s, SpellT e s → s.length ≤ n + 1 → ∀ c ∈ s,
        isPyDigit c = true ∨ c = '.' ∨ isOpChar c = true ∨ c = '(' ∨ c = ')' ∨
          isBlank c = true := by
      intro e s hsp hlen c hc
      cases hsp with
      | fac e s hf => exact hF e s hf hlen c hc
      | bin o l r s1 s2 hop h1 h2 =>
        simp only [List.length_append, List.length_cons] at hlen
        rcases List.mem_append.mp hc with hc2 | hc2
        · exact ihT l s1 h1 (by omega) c hc2
        · rcases List.mem_cons.mp hc2 with rfl | hc3
          · exact Or.inr (Or.inr (Or.inl (opChar4_isOp o)))
          · exact hF r s2 h2 (by omega) c hc3
    have hE : ∀ e s, SpellE e s → s.length ≤ n + 1 → ∀ c ∈ s,
        isPyDigit c = true ∨ c = '.' ∨ isOpChar c = true ∨ c = '(' ∨ c = ')' ∨
          isBlank c = true := by
      intro e s hsp hlen c hc
      cases hsp with
      | term e s ht => exact hT e s ht hlen c hc
      | bin o l r s1 s2 hop h1 h2 =>
        simp only [List.length_append, List.length_cons] at hlen
        rcases List.mem_append.mp hc with hc2 | hc2
        · exact ihE l s1 h1 (by omega) c hc2
        · rcases List.mem_cons.mp hc2 with rfl | hc3
          · exact Or.inr (Or.inr (Or.inl (opChar4_isOp o)))
          · exact hT r s2 h2 (by omega) c hc3
    exact ⟨hF, hT, hE⟩

theorem safe_head_num {rest : List Char}
    (hrest : ∀ c, rest.head? = some c → isOpChar c = true ∨ c = ')' ∨ isBlank c = true) :
    ∀ c, rest.head? = some c → isPyDigit c = false ∧ c ≠ '.' := by
  intro c hc
  rcases hrest c hc with h | rfl | h
  · refine ⟨not_digit_of_op h, ?_⟩
    rintro rfl
    exact absurd h (by decide)
  · exact ⟨by decide, by decide⟩
  · exact ⟨not_digit_of_blank h, (blank_bounds h).1⟩

theorem head_not_starslash {s2 : List Char} {c0 : Char} {t0 : List Char}
    (heq : s2 = c0 :: t0)
    (hc0 : isPyDigit c0 = true ∨ c0 = '.' ∨ c0 = '(' ∨ isBlank c0 = true)
    (rest : List Char) :
    ¬(s2 ++ rest).head? = some '*' ∧ ¬(s2 ++ rest).head? = some '/' := by
  subst heq
  simp only [List.cons_append, List.head?_cons, Option.some.injEq]
  rcases hc0 with h | rfl | rfl | h
  · exact ⟨(digit_bounds h).2.1, (digit_bounds h).2.2.1⟩
  · exact ⟨by decide, by decide⟩
  · exact ⟨by decide, by decide⟩
  · exact ⟨(blank_bounds h).2.1, (blank_bounds h).2.2.1⟩

theorem tokenizeD_cons_opChar (o : AOp) (d : Nat) {cs : List Char}
    (hstar : ¬cs.head? = some '*') (hslash : ¬cs.head? = some '/') :
    tokenizeD d (opChar4 o :: cs) = (tokenizeD d cs).map (opTok o :: ·) := by
  cases o with
  | add => exact tokenizeD_cons_plus d cs
  | sub => exact tokenizeD_cons_minus d cs
  | mul => exact tokenizeD_cons_star hstar d
  | div => exact tokenizeD_cons_slash hslash d

/-- Every spelling lexes: its token list satisfies the token-level grammar
at the same position, and tokenizing it prepends that token list. -/
theorem spell_lex_all : ∀ n : ℕ,
    (∀ e s, SpellF e s → s.length ≤ n → ∃ ts, TSpellF e ts ∧ LexOk s ts) ∧
    (∀ e s, SpellT e s → s.length ≤ n → ∃ ts, TSpellT e ts ∧ LexOk s ts) ∧
    (∀ e s, SpellE e s → s.length ≤ n → ∃ ts, TSpellE e ts ∧ LexOk s ts) := by
  intro n
  induction n with
  | zero =>
    refine ⟨?_, ?_, ?_⟩ <;> intro e s hsp hlen <;> exfalso
    · obtain ⟨c, t, heq, -⟩ := (spell_head_all 0).1 e s hsp hlen
      rw [heq] at hlen
      simp at hlen
    · obtain ⟨c, t, heq, -⟩ := (spell_head_all 0).2.1 e s hsp hlen
      rw [heq] at hlen
      simp at hlen
    · obtain ⟨c, t, heq, -⟩ := (spell_head_all 0).2.2 e s hsp hlen
      rw [heq] at hlen
      simp at hlen
  | succ n ih =>
    obtain ⟨ihF, ihT, ihE⟩ := ih
    have hF : ∀ e s, SpellF e s → s.length ≤ n + 1 →
        ∃ ts, TSpellF e ts ∧ LexOk s ts := by
      intro e s hsp hlen
      cases hsp with
      | lit q s hdl =>
        refine ⟨[Tok.num q], TSpellF.lit q, ?_⟩
        intro d rest hrest
        obtain ⟨c0, t0, heq, hc0⟩ := decLit_head hdl
        have hlex := lexNum_decLit hdl rest (safe_head_num hrest)
        rw [heq] at hlex ⊢
        rw [List.cons_append] at hlex ⊢
        rw [tokenizeD_cons_num hc0 hlex d]
        rfl
      | paren e s hE =>
        have hlen2 : s.length ≤ n := by
          simp only [List.length_cons, List.length_append, List.length_nil] at hlen
          omega
        obtain ⟨ts, hts, hlx⟩ := ihE e s hE (by omega)
        refine ⟨Tok.lpar :: (ts ++ [Tok.rpar]), TSpellF.paren e ts hts, ?_⟩
        intro d rest hrest
        have h1 : ('(' :: (s ++ [')'])) ++ rest = '(' :: (s ++ (')' :: rest)) := by
          simp
        rw [h1, tokenizeD_cons_lpar]
        rw [hlx (d + 1) (')' :: rest) (fun c hc => by
          simp only [List.head?_cons, Option.some.injEq] at hc
          subst hc
          exact Or.inr (Or.inl rfl))]
        rw [tokenizeD_cons_rpar]
        have hdd : d + 1 - 1 = d := by omega
        rw [hdd]
        rcases tokenizeD d rest with - | x
        · rfl
        · simp
      | padL e c s hb hf =>
        have hlen2 : s.length ≤ n := by
          simp only [List.length_cons] at hlen
          omega
        obtain ⟨ts, hts, hlx⟩ := ihF e s hf hlen2
        refine ⟨ts, hts, ?_⟩
        intro d rest hrest
        rw [List.cons_append, tokenizeD_cons_blank hb]
        exact hlx d rest hrest
      | padR e c s hb hf =>
        have hlen2 : s.length ≤ n := by
          simp only [List.length_append, List.length_cons, List.length_nil] at hlen
          omega
        obtain ⟨ts, hts, hlx⟩ := ihF e s hf hlen2
        refine ⟨ts, hts, ?_⟩
        intro d rest hrest
        have h1 : (s ++ [c]) ++ rest = s ++ (c :: rest) := by simp
        rw [h1]
        rw [hlx d (c :: rest) (fun x hx => by
          simp only [List.head?_cons, Option.some.injEq] at hx
          subst hx
          exact Or.inr (Or.inr hb))]
        rw [tokenizeD_cons_blank hb]
    have hT : ∀ e s, SpellT e s → s.length ≤ n + 1 →
        ∃ ts, TSpellT e ts ∧ LexOk s ts := by
      intro e s hsp hlen
      cases hsp with
      | fac e s hf =>
        obtain ⟨ts, hts, hlx⟩ := hF e s hf hlen
        exact ⟨ts, TSpellT.fac e ts hts, hlx⟩
      | bin o l r s1 s2 hop h1 h2 =>
        simp only [List.length_append, List.length_cons] at hlen
        obtain ⟨ts1, hts1, hlx1⟩ := ihT l s1 h1 (by omega)
        obtain ⟨ts2, hts2, hlx2⟩ := hF r s2 h2 (by omega)
        refine ⟨ts1 ++ opTok o :: ts2, TSpellT.bin o l r ts1 ts2 hop hts1 hts2, ?_⟩
        intro d rest hrest
        obtain ⟨c0, t0, heq2, hc0⟩ := (spell_head_all (n + 1)).1 r s2 h2 (by omega)
        obtain ⟨hns, hnsl⟩ := head_not_starslash heq2 hc0 rest
        have hassoc : (s1 ++ opChar4 o :: s2) ++ rest =
            s1 ++ (opChar4 o :: (s2 ++ rest)) := by simp
        rw [hassoc]
        rw [hlx1 d (opChar4 o :: (s2 ++ rest)) (fun c hc => by
          simp only [List.head?_cons, Option.some.injEq] at hc
          subst hc
          exact Or.inl (opChar4_isOp o))]
        rw [tokenizeD_cons_opChar o d hns hnsl]
        rw [hlx2 d rest hrest]
        rcases tokenizeD d rest with - | x
        · rfl
        · simp
    have hE : ∀ e s, SpellE e s → s.length ≤ n + 1 →
        ∃ ts, TSpellE e ts ∧ LexOk s ts := by
      intro e s hsp hlen
      cases hsp with
      | term e s ht =>
        obtain ⟨ts, hts, hlx⟩ := hT e s ht hlen
        exact ⟨ts, TSpellE.term e ts hts, hlx⟩
      | bin o l r s1 s2 hop h1 h2 =>
        simp only [List.length_append, List.length_cons] at hlen
        obtain ⟨ts1, hts1, hlx1⟩ := ihE l s1 h1 (by omega)
        obtain ⟨ts2, hts2, hlx2⟩ := hT r s2 h2 (by omega)
        refine ⟨ts1 ++ opTok o :: ts2, TSpellE.bin o l r ts1 ts2 hop hts1 hts2, ?_⟩
        intro d rest hrest
        obtain ⟨c0, t0, heq2, hc0⟩ := (spell_head_all (n + 1)).2.1 r s2 h2 (by omega)
        obtain ⟨hns, hnsl⟩ := head_not_starslash heq2 hc0 rest
        have hassoc : (s1 ++ opChar4 o :: s2) ++ rest =
            s1 ++ (opChar4 o :: (s2 ++ rest)) := by simp
        rw [hassoc]
        rw [hlx1 d (opChar4 o :: (s2 ++ rest)) (fun c hc => by
          simp only [List.head?_cons, Option.some.injEq] at hc
          subst hc
          exact Or.inl (opChar4_isOp o))]
        rw [tokenizeD_cons_opChar o d hns hnsl]
        rw [hlx2 d rest hrest]
        rcases tokenizeD d rest with - | x
        · rfl
        · simp
    exact ⟨hF, hT, hE⟩

/-! ### Parsing the token-level spellings (claim C1) -/

theorem tspellF_shape {e : AExpr} {ts : List Tok} (h : TSpellF e ts) :
    (∃ q, ts = [Tok.num q]) ∨
    (∃ inner, ts = Tok.lpar :: (inner ++ [Tok.rpar])) := by
  cases h with
  | lit q => exact Or.inl ⟨q, rfl⟩
  | paren e inner hE => exact Or.inr ⟨inner, rfl⟩

theorem astOf_spine : ∀ (pairs : List (AOp × AExpr × List Tok)) (h : AExpr),
    astOf (spineExpr h pairs) = spineFold (astOf h) pairs := by
  intro pairs
  induction pairs with
  | nil =>
    intro h
    rfl
  | cons x xs ih =>
    intro h
    show astOf (spineExpr (AExpr.bin x.1 h x.2.1) xs) =
      spineFold (PExpr.bin (bopOf x.1) (astOf h) (astOf x.2.1)) xs
    rw [ih (AExpr.bin x.1 h x.2.1)]
    rfl

theorem spineToks_cons (x : AOp × AExpr × List Tok)
    (s : List (AOp × AExpr × List Tok)) :
    spineToks (x :: s) = opTok x.1 :: (x.2.2 ++ spineToks s) := by
  simp [spineToks]

theorem spineToks_append (s1 s2 : List (AOp × AExpr × List Tok)) :
    spineToks (s1 ++ s2) = spineToks s1 ++ spineToks s2 := by
  simp [spineToks]

theorem tspellT_view : ∀ (n : ℕ) {e : AExpr} {ts : List Tok},
    TSpellT e ts → ts.length ≤ n →
    ∃ f0 ts0 pairs, TSpellF f0 ts0 ∧
      (∀ x ∈ pairs, opLevel (x : AOp × AExpr × List Tok).1 = 1 ∧ TSpellF x.2.1 x.2.2) ∧
      e = spineExpr f0 pairs ∧ ts = ts0 ++ spineToks pairs := by
  intro n
  induction n with
  | zero =>
    intro e ts h hlen
    cases h with
    | fac e ts hf =>
      exact ⟨e, ts, [], hf, by simp, by simp [spineExpr], by simp [spineToks]⟩
    | bin o l r ts1 ts2 hop h1 h2 =>
      exfalso
      simp at hlen
  | succ n ih =>
    intro e ts h hlen
    cases h with
    | fac e ts hf =>
      exact ⟨e, ts, [], hf, by simp, by simp [spineExpr], by simp [spineToks]⟩
    | bin o l r ts1 ts2 hop h1 h2 =>
      have hlen1 : ts1.length ≤ n := by
        simp only [List.length_append, List.length_cons] at hlen
        omega
      obtain ⟨f0, ts0, pairs, hf0, hpairs, he, hts⟩ := ih h1 hlen1
      refine ⟨f0, ts0, pairs ++ [(o, r, ts2)], hf0, ?_, ?_, ?_⟩
      · intro x hx
        rcases List.mem_append.mp hx with hx | hx
        · exact hpairs x hx
        · rcases List.mem_singleton.mp hx with rfl
          exact ⟨hop, h2⟩
      · rw [he]
        simp [spineExpr, List.foldl_append]
      · rw [hts, spineToks_append]
        simp [spineToks]

theorem tspellE_view : ∀ (n : ℕ) {e : AExpr} {ts : List Tok},
    TSpellE e ts → ts.length ≤ n →
    ∃ t0 ts0 pairs, TSpellT t0 ts0 ∧
      (∀ x ∈ pairs, opLevel (x : AOp × AExpr × List Tok).1 = 0 ∧ TSpellT x.2.1 x.2.2) ∧
      e = spineExpr t0 pairs ∧ ts = ts0 ++ spineToks pairs := by
  intro n
  induction n with
  | zero =>
    intro e ts h hlen
    cases h with
    | term e ts htm =>
      exact ⟨e, ts, [], htm, by simp, by simp [spineExpr], by simp [spineToks]⟩
    | bin o l r ts1 ts2 hop h1 h2 =>
      exfalso
      simp at hlen
  | succ n ih =>
    intro e ts h hlen
    cases h with
    | term e ts htm =>
      exact ⟨e, ts, [], htm, by simp, by simp [spineExpr], by simp [spineToks]⟩
    | bin o l r ts1 ts2 hop h1 h2 =>
      have hlen1 : ts1.length ≤ n := by
        simp only [List.length_append, List.length_cons] at hlen
        omega
      obtain ⟨t0, ts0, pairs, ht0, hpairs, he, hts⟩ := ih h1 hlen1
      refine ⟨t0, ts0, pairs ++ [(o, r, ts2)], ht0, ?_, ?_, ?_⟩
      · intro x hx
        rcases List.mem_append.mp hx with hx | hx
        · exact hpairs x hx
        · rcases List.mem_singleton.mp hx with rfl
          exact ⟨hop, h2⟩
      · rw [he]
        simp [spineExpr, List.foldl_append]
      · rw [hts, spineToks_append]
        simp [spineToks]

theorem parseG_pow {ts : List Tok} {p : PExpr}
    (hPA : ∀ (rest : List Tok) (f : Nat), 8 * ts.length + 1 ≤ f →
      parseF f PMode.atom (PExpr.num 0) (ts ++ rest) = some (p, rest)) :
    ∀ (rest : List Tok) (f : Nat), 8 * ts.length + 2 ≤ f →
      (∀ tk, rest.head? = some tk → tk ≠ Tok.dstar) →
      parseF f PMode.pow (PExpr.num 0) (ts ++ rest) = some (p, rest) := by
  intro rest f hf hrest
  rcases f with - | f'
  · omega
  · simp only [parseF]
    rw [hPA rest f' (by omega)]
    rcases rest with - | ⟨tk, t⟩
    · rfl
    · cases tk
      case dstar => exact absurd rfl (hrest _ rfl)
      all_goals rfl

theorem parseG_factor {ts : List Tok} {p : PExpr}
    (hshape : (∃ q, ts = [Tok.num q]) ∨ (∃ inner, ts = Tok.lpar :: (inner ++ [Tok.rpar])))
    (hPA : ∀ (rest : List Tok) (f : Nat), 8 * ts.length + 1 ≤ f →
      parseF f PMode.atom (PExpr.num 0) (ts ++ rest) = some (p, rest)) :
    ∀ (rest : List Tok) (f : Nat), 8 * ts.length + 3 ≤ f →
      (∀ tk, rest.head? = some tk → tk ≠ Tok.dstar) →
      parseF f PMode.factor (PExpr.num 0) (ts ++ rest) = some (p, rest) := by
  intro rest f hf hrest
  rcases f with - | f'
  · omega
  · have hpow := parseG_pow hPA rest f' (by omega) hrest
    rcases hshape with ⟨q, rfl⟩ | ⟨inner, rfl⟩
    · simpa only [parseF] using hpow
    · simpa only [parseF] using hpow

theorem parseG_termLoop (s : List (AOp × AExpr × List Tok))
    (hfac : ∀ x ∈ s, ∀ (rest : List Tok) (f : Nat),
      8 * (x : AOp × AExpr × List Tok).2.2.length + 3 ≤ f →
      (∀ tk, rest.head? = some tk → tk ≠ Tok.dstar) →
      parseF f PMode.factor (PExpr.num 0) (x.2.2 ++ rest) = some (astOf x.2.1, rest))
    (hops : ∀ x ∈ s, opLevel (x : AOp × AExpr × List Tok).1 = 1) :
    ∀ (acc : PExpr) (rest : List Tok) (f : Nat), 8 * (spineToks s).length + 4 ≤ f →
      (∀ tk, rest.head? = some tk →
        tk ≠ Tok.star ∧ tk ≠ Tok.slash ∧ tk ≠ Tok.dslash ∧ tk ≠ Tok.dstar) →
      parseF f PMode.termLoop acc (spineToks s ++ rest) = some (spineFold acc s, rest) := by
  induction s with
  | nil =>
    intro acc rest f hf hrest
    rcases f with - | f'
    · omega
    · simp only [spineToks, List.map_nil, List.flatten_nil, List.nil_append, spineFold,
        List.foldl_nil]
      rcases rest with - | ⟨tk, t⟩
      · rfl
      · obtain ⟨h1, h2, h3, h4⟩ := hrest tk rfl
        cases tk
        case star => exact absurd rfl h1
        case slash => exact absurd rfl h2
        case dslash => exact absurd rfl h3
        all_goals rfl
  | cons x s' ih =>
    intro acc rest f hf hrest
    obtain ⟨o, t, ts2⟩ := x
    have hop := hops (o, t, ts2) (List.mem_cons_self _ _)
    have hflat : spineToks ((o, t, ts2) :: s') = opTok o :: (ts2 ++ spineToks s') :=
      spineToks_cons _ _
    have hlen : (spineToks ((o, t, ts2) :: s')).length =
        1 + ts2.length + (spineToks s').length := by
      rw [hflat]
      simp only [List.length_cons, List.length_append]
      omega
    rcases f with - | f'
    · omega
    · rw [hlen] at hf
      rw [hflat]
      have hhead : ∀ tk, (spineToks s' ++ rest).head? = some tk → tk ≠ Tok.dstar := by
        intro tk htk
        cases s' with
        | nil =>
          simp only [spineToks, List.map_nil, List.flatten_nil, List.nil_append] at htk
          exact (hrest tk htk).2.2.2
        | cons x2 s'' =>
          have hop2 := hops x2 (List.mem_cons_of_mem _ (List.mem_cons_self _ _))
          have hh2 : (spineToks (x2 :: s'') ++ rest).head? = some (opTok x2.1) := by
            rw [spineToks_cons]
            rfl
          rw [hh2] at htk
          cases htk
          rcases hp2 : x2.1 with - | - | - | - <;> rw [hp2] at hop2
          · simp [opLevel] at hop2
          · simp [opLevel] at hop2
          · simp [opTok]
          · simp [opTok]
      have hfact := hfac (o, t, ts2) (List.mem_cons_self _ _) (spineToks s' ++ rest) f'
        (by show 8 * ts2.length + 3 ≤ f'; omega) hhead
      have hstep := ih (fun x hx => hfac x (List.mem_cons_of_mem _ hx))
        (fun x hx => hops x (List.mem_cons_of_mem _ hx))
        (PExpr.bin (bopOf o) acc (astOf t)) rest f' (by omega) hrest
      have hfold : spineFold acc ((o, t, ts2) :: s') =
          spineFold (PExpr.bin (bopOf o) acc (astOf t)) s' := by
        simp [spineFold]
      rcases o with - | - | - | -
      · simp [opLevel] at hop
      · simp [opLevel] at hop
      · dsimp only [bopOf] at hfact hstep hfold
        simp only [opTok, List.cons_append, parseF, List.append_assoc, hfact, hstep, hfold]
      · dsimp only [bopOf] at hfact hstep hfold
        simp only [opTok, List.cons_append, parseF, List.append_assoc, hfact, hstep, hfold]

theorem parseG_exprLoop (s : List (AOp × AExpr × List Tok))
    (hterms : ∀ x ∈ s, ∀ (rest : List Tok) (f : Nat),
      8 * (x : AOp × AExpr × List Tok).2.2.length + 5 ≤ f →
      (∀ tk, rest.head? = some tk →
        tk ≠ Tok.star ∧ tk ≠ Tok.slash ∧ tk ≠ Tok.dslash ∧ tk ≠ Tok.dstar) →
      parseF f PMode.term (PExpr.num 0) (x.2.2 ++ rest) = some (astOf x.2.1, rest))
    (hops : ∀ x ∈ s, opLevel (x : AOp × AExpr × List Tok).1 = 0) :
    ∀ (acc : PExpr) (rest : List Tok) (f : Nat), 8 * (spineToks s).length + 6 ≤ f →
      (∀ tk, rest.head? = some tk →
        tk ≠ Tok.plus ∧ tk ≠ Tok.minus ∧ tk ≠ Tok.star ∧ tk ≠ Tok.slash ∧
          tk ≠ Tok.dslash ∧ tk ≠ Tok.dstar) →
      parseF f PMode.exprLoop acc (spineToks s ++ rest) = some (spineFold acc s, rest) := by
  induction s with
  | nil =>
    intro acc rest f hf hrest
    rcases f with - | f'
    · omega
    · simp only [spineToks, List.map_nil, List.flatten_nil, List.nil_append, spineFold,
        List.foldl_nil]
      rcases rest with - | ⟨tk, t⟩
      · rfl
      · obtain ⟨h1, h2, h3, h4, h5, h6⟩ := hrest tk rfl
        cases tk
        case plus => exact absurd rfl h1
        case minus => exact absurd rfl h2
        all_goals rfl
  | cons x s' ih =>
    intro acc rest f hf hrest
    obtain ⟨o, t, ts2⟩ := x
    have hop := hops (o, t, ts2) (List.mem_cons_self _ _)
    have hflat : spineToks ((o, t, ts2) :: s') = opTok o :: (ts2 ++ spineToks s') :=
      spineToks_cons _ _
    have hlen : (spineToks ((o, t, ts2) :: s')).length =
        1 + ts2.length + (spineToks s').length := by
      rw [hflat]
      simp only [List.length_cons, List.length_append]
      omega
    rcases f with - | f'
    · omega
    · rw [hlen] at hf
      rw [hflat]
      have hhead : ∀ tk, (spineToks s' ++ rest).head? = some tk →
          tk ≠ Tok.star ∧ tk ≠ Tok.slash ∧ tk ≠ Tok.dslash ∧ tk ≠ Tok.dstar := by
        intro tk htk
        cases s' with
        | nil =>
          simp only [spineToks, List.map_nil, List.flatten_nil, List.nil_append] at htk
          obtain ⟨-, -, h3, h4, h5, h6⟩ := hrest tk htk
          exact ⟨h3, h4, h5, h6⟩
        | cons x2 s'' =>
          have hop2 := hops x2 (List.mem_cons_of_mem _ (List.mem_cons_self _ _))
          have hh2 : (spineToks (x2 :: s'') ++ rest).head? = some (opTok x2.1) := by
            rw [spineToks_cons]
            rfl
          rw [hh2] at htk
          cases htk
          rcases hp2 : x2.1 with - | - | - | - <;> rw [hp2] at hop2
          · simp [opTok]
          · simp [opTok]
          · simp [opLevel] at hop2
          · simp [opLevel] at hop2
      have hfact := hterms (o, t, ts2) (List.mem_cons_self _ _) (spineToks s' ++ rest) f'
        (by show 8 * ts2.length + 5 ≤ f'; omega) hhead
      have hstep := ih (fun x hx => hterms x (List.mem_cons_of_mem _ hx))
        (fun x hx => hops x (List.mem_cons_of_mem _ hx))
        (PExpr.bin (bopOf o) acc (astOf t)) rest f' (by omega) hrest
      have hfold : spineFold acc ((o, t, ts2) :: s') =
          spineFold (PExpr.bin (bopOf o) acc (astOf t)) s' := by
        simp [spineFold]
      rcases o with - | - | - | -
      · dsimp only [bopOf] at hfact hstep hfold
        simp only [opTok, List.cons_append, parseF, List.append_assoc, hfact, hstep, hfold]
      · dsimp only [bopOf] at hfact hstep hfold
        simp only [opTok, List.cons_append, parseF, List.append_assoc, hfact, hstep, hfold]
      · simp [opLevel] at hop
      · simp [opLevel] at hop

theorem mem_spineToks_length (x : AOp × AExpr × List Tok) :
    ∀ s : List (AOp × AExpr × List Tok), x ∈ s →
      x.2.2.length + 1 ≤ (spineToks s).length := by
  intro s
  induction s with
  | nil =>
    intro h
    cases h
  | cons y ys ih =>
    intro h
    rw [spineToks_cons]
    simp only [List.length_cons, List.length_append]
    rcases List.mem_cons.mp h with rfl | h
    · omega
    · have := ih h
      omega

theorem tspell_parse_all : ∀ n : ℕ,
    (∀ e ts, TSpellF e ts → ts.length ≤ n →
      ∀ (rest : List Tok) (f : Nat), 8 * ts.length + 1 ≤ f →
        parseF f PMode.atom (PExpr.num 0) (ts ++ rest) = some (astOf e, rest)) ∧
    (∀ e ts, TSpellT e ts → ts.length ≤ n →
      ∀ (rest : List Tok) (f : Nat), 8 * ts.length + 5 ≤ f →
        (∀ tk, rest.head? = some tk →
          tk ≠ Tok.star ∧ tk ≠ Tok.slash ∧ tk ≠ Tok.dslash ∧ tk ≠ Tok.dstar) →
        parseF f PMode.term (PExpr.num 0) (ts ++ rest) = some (astOf e, rest)) ∧
    (∀ e ts, TSpellE e ts → ts.length ≤ n →
      ∀ (rest : List Tok) (f : Nat), 8 * ts.length + 7 ≤ f →
        (∀ tk, rest.head? = some tk →
          tk ≠ Tok.plus ∧ tk ≠ Tok.minus ∧ tk ≠ Tok.star ∧ tk ≠ Tok.slash ∧
            tk ≠ Tok.dslash ∧ tk ≠ Tok.dstar) →
        parseF f PMode.expr (PExpr.num 0) (ts ++ rest) = some (astOf e, rest)) := by
  intro n
  induction n with
  | zero =>
    refine ⟨?_, ?_, ?_⟩
    · intro e ts h hlen
      exfalso
      rcases tspellF_shape h with ⟨q, rfl⟩ | ⟨inner, rfl⟩ <;> simp at hlen
    · intro e ts h hlen
      exfalso
      cases h with
      | fac e ts hfc =>
        rcases tspellF_shape hfc with ⟨q, rfl⟩ | ⟨inner, rfl⟩ <;> simp at hlen
      | bin o l r ts1 ts2 hop h1 h2 => simp at hlen
    · intro e ts h hlen
      exfalso
      cases h with
      | term e ts htm =>
        cases htm with
        | fac e ts hfc =>
          rcases tspellF_shape hfc with ⟨q, rfl⟩ | ⟨inner, rfl⟩ <;> simp at hlen
        | bin o l r ts1 ts2 hop h1 h2 => simp at hlen
      | bin o l r ts1 ts2 hop h1 h2 => simp at hlen
  | succ n ih =>
    have hF : ∀ e ts, TSpellF e ts → ts.length ≤ n + 1 →
        ∀ (rest : List Tok) (f : Nat), 8 * ts.length + 1 ≤ f →
          parseF f PMode.atom (PExpr.num 0) (ts ++ rest) = some (astOf e, rest) := by
      intro e ts h hlen rest f hf
      cases h with
      | lit q =>
        rcases f with - | f'
        · omega
        · rfl
      | paren e inner hE2 =>
        have hlen2 : inner.length ≤ n := by
          simp only [List.length_cons, List.length_append, List.length_singleton] at hlen
          omega
        rcases f with - | f'
        · simp only [List.length_cons, List.length_append, List.length_singleton] at hf
          omega
        · have hfuel : 8 * inner.length + 7 ≤ f' := by
            simp only [List.length_cons, List.length_append, List.length_singleton] at hf
            omega
          have hexp := ih.2.2 e inner hE2 hlen2 (Tok.rpar :: rest) f' hfuel
            (by
              intro tk htk
              simp only [List.head?_cons, Option.some.injEq] at htk
              subst htk
              refine ⟨?_, ?_, ?_, ?_, ?_, ?_⟩ <;> intro hc <;> cases hc)
          have hlist : (Tok.lpar :: (inner ++ [Tok.rpar])) ++ rest
              = Tok.lpar :: (inner ++ (Tok.rpar :: rest)) := by
            simp
          rw [hlist]
          show (match parseF f' PMode.expr (PExpr.num 0) (inner ++ (Tok.rpar :: rest)) with
            | some (e, Tok.rpar :: r3) => some (e, r3)
            | _ => none) = some (astOf e, rest)
          rw [hexp]
    have hT : ∀ e ts, TSpellT e ts → ts.length ≤ n + 1 →
        ∀ (rest : List Tok) (f : Nat), 8 * ts.length + 5 ≤ f →
          (∀ tk, rest.head? = some tk →
            tk ≠ Tok.star ∧ tk ≠ Tok.slash ∧ tk ≠ Tok.dslash ∧ tk ≠ Tok.dstar) →
          parseF f PMode.term (PExpr.num 0) (ts ++ rest) = some (astOf e, rest) := by
      intro e ts h hlen rest f hf hrest
      obtain ⟨f0, ts0, pairs, hf0, hpairs, he, hts⟩ := tspellT_view (n + 1) h hlen
      subst he
      subst hts
      have hlens : ts0.length + (spineToks pairs).length ≤ n + 1 := by
        simpa [List.length_append] using hlen
      have hA0 := hF f0 ts0 hf0 (by omega)
      have hfac0 := parseG_factor (tspellF_shape hf0) hA0
      have hmem : ∀ x ∈ pairs, ∀ (rest' : List Tok) (f' : Nat),
          8 * (x : AOp × AExpr × List Tok).2.2.length + 3 ≤ f' →
          (∀ tk, rest'.head? = some tk → tk ≠ Tok.dstar) →
          parseF f' PMode.factor (PExpr.num 0) (x.2.2 ++ rest')
            = some (astOf x.2.1, rest') := by
        intro x hx rest' f' hf' hrest'
        have hxlen := mem_spineToks_length x pairs hx
        have hxA := hF x.2.1 x.2.2 (hpairs x hx).2 (by omega)
        exact parseG_factor (tspellF_shape (hpairs x hx).2) hxA rest' f' hf' hrest'
      rcases f with - | f'
      · omega
      · simp only [List.length_append] at hf
        have hhead0 : ∀ tk, (spineToks pairs ++ rest).head? = some tk →
            tk ≠ Tok.dstar := by
          intro tk htk
          cases pairs with
          | nil =>
            simp only [spineToks, List.map_nil, List.flatten_nil, List.nil_append] at htk
            exact (hrest tk htk).2.2.2
          | cons x2 s'' =>
            have hop2 := (hpairs x2 (List.mem_cons_self _ _)).1
            have hh2 : (spineToks (x2 :: s'') ++ rest).head? = some (opTok x2.1) := by
              rw [spineToks_cons]
              rfl
            rw [hh2] at htk
            cases htk
            rcases hp2 : x2.1 with - | - | - | - <;> rw [hp2] at hop2
            · simp [opLevel] at hop2
            · simp [opLevel] at hop2
            · simp [opTok]
            · simp [opTok]
        have hfac0' := hfac0 (spineToks pairs ++ rest) f' (by omega) hhead0
        have hloop := parseG_termLoop pairs hmem (fun x hx => (hpairs x hx).1)
          (astOf f0) rest f' (by omega) hrest
        rw [List.append_assoc]
        show (match parseF f' PMode.factor (PExpr.num 0)
            (ts0 ++ (spineToks pairs ++ rest)) with
          | some (g, r) => parseF f' PMode.termLoop g r
          | none => none) = some (astOf (spineExpr f0 pairs), rest)
        rw [hfac0']
        show parseF f' PMode.termLoop (astOf f0) (spineToks pairs ++ rest)
          = some (astOf (spineExpr f0 pairs), rest)
        rw [hloop, astOf_spine]
    have hE : ∀ e ts, TSpellE e ts → ts.length ≤ n + 1 →
        ∀ (rest : List Tok) (f : Nat), 8 * ts.length + 7 ≤ f →
          (∀ tk, rest.head? = some tk →
            tk ≠ Tok.plus ∧ tk ≠ Tok.minus ∧ tk ≠ Tok.star ∧ tk ≠ Tok.slash ∧
              tk ≠ Tok.dslash ∧ tk ≠ Tok.dstar) →
          parseF f PMode.expr (PExpr.num 0) (ts ++ rest) = some (astOf e, rest) := by
      intro e ts h hlen rest f hf hrest
      obtain ⟨t0, ts0, pairs, ht0, hpairs, he, hts⟩ := tspellE_view (n + 1) h hlen
      subst he
      subst hts
      have hlens : ts0.length + (spineToks pairs).length ≤ n + 1 := by
        simpa [List.length_append] using hlen
      have hmem : ∀ x ∈ pairs, ∀ (rest' : List Tok) (f' : Nat),
          8 * (x : AOp × AExpr × List Tok).2.2.length + 5 ≤ f' →
          (∀ tk, rest'.head? = some tk →
            tk ≠ Tok.star ∧ tk ≠ Tok.slash ∧ tk ≠ Tok.dslash ∧ tk ≠ Tok.dstar) →
          parseF f' PMode.term (PExpr.num 0) (x.2.2 ++ rest')
            = some (astOf x.2.1, rest') := by
        intro x hx rest' f' hf' hrest'
        have hxlen := mem_spineToks_length x pairs hx
        exact hT x.2.1 x.2.2 (hpairs x hx).2 (by omega) rest' f' hf' hrest'
      rcases f with - | f'
      · omega
      · simp only [List.length_append] at hf
        have hhead0 : ∀ tk, (spineToks pairs ++ rest).head? = some tk →
            tk ≠ Tok.star ∧ tk ≠ Tok.slash ∧ tk ≠ Tok.dslash ∧ tk ≠ Tok.dstar := by
          intro tk htk
          cases pairs with
          | nil =>
            simp only [spineToks, List.map_nil, List.flatten_nil, List.nil_append] at htk
            obtain ⟨-, -, h3, h4, h5, h6⟩ := hrest tk htk
            exact ⟨h3, h4, h5, h6⟩
          | cons x2 s'' =>
            have hop2 := (hpairs x2 (List.mem_cons_self _ _)).1
            have hh2 : (spineToks (x2 :: s'') ++ rest).head? = some (opTok x2.1) := by
              rw [spineToks_cons]
              rfl
            rw [hh2] at htk
            cases htk
            rcases hp2 : x2.1 with - | - | - | - <;> rw [hp2] at hop2
            · simp [opTok]
            · simp [opTok]
            · simp [opLevel] at hop2
            · simp [opLevel] at hop2
        have hterm0 := hT t0 ts0 ht0 (by omega) (spineToks pairs ++ rest) f'
          (by omega) hhead0
        have hloop := parseG_exprLoop pairs hmem (fun x hx => (hpairs x hx).1)
          (astOf t0) rest f' (by omega) hrest
        rw [List.append_assoc]
        show (match parseF f' PMode.term (PExpr.num 0)
            (ts0 ++ (spineToks pairs ++ rest)) with
          | some (t, r) => parseF f' PMode.exprLoop t r
          | none => none) = some (astOf (spineExpr t0 pairs), rest)
        rw [hterm0]
        show parseF f' PMode.exprLoop (astOf t0) (spineToks pairs ++ rest)
          = some (astOf (spineExpr t0 pairs), rest)
        rw [hloop, astOf_spine]
    exact ⟨hF, hT, hE⟩

theorem takeWhile_mem_spec (p : Char → Bool) :
    ∀ (l : List Char) (c : Char), c ∈ l.takeWhile p → c ∈ l ∧ p c = true := by
  intro l
  induction l with
  | nil =>
    intro c hc
    cases hc
  | cons a t ih =>
    intro c hc
    by_cases h : p a = true
    · rw [List.takeWhile_cons_of_pos h] at hc
      rcases List.mem_cons.mp hc with rfl | hc
      · exact ⟨List.mem_cons_self _ _, h⟩
      · obtain ⟨h1, h2⟩ := ih c hc
        exact ⟨List.mem_cons_of_mem _ h1, h2⟩
    · rw [List.takeWhile_cons_of_neg (by simpa using h)] at hc
      cases hc

theorem dropWhile_mem (p : Char → Bool) :
    ∀ (l : List Char) (c : Char), c ∈ l.dropWhile p → c ∈ l := by
  intro l
  induction l with
  | nil =>
    intro c hc
    cases hc
  | cons a t ih =>
    intro c hc
    by_cases h : p a = true
    · rw [List.dropWhile_cons_of_pos h] at hc
      exact List.mem_cons_of_mem _ (ih c hc)
    · rw [List.dropWhile_cons_of_neg (by simpa using h)] at hc
      exact hc

theorem strip_decomp (s : List Char) :
    s = s.takeWhile isPySpace ++ (pyStrip s
      ++ ((s.dropWhile isPySpace).reverse.takeWhile isPySpace).reverse) := by
  have h1 : s.takeWhile isPySpace ++ s.dropWhile isPySpace = s :=
    List.takeWhile_append_dropWhile isPySpace s
  have h2 : (s.dropWhile isPySpace).reverse.takeWhile isPySpace
      ++ (s.dropWhile isPySpace).reverse.dropWhile isPySpace
      = (s.dropWhile isPySpace).reverse :=
    List.takeWhile_append_dropWhile isPySpace (s.dropWhile isPySpace).reverse
  have h3 := congrArg List.reverse h2
  rw [List.reverse_append, List.reverse_reverse] at h3
  conv_lhs => rw [← h1, ← h3]
  rfl

theorem tspellT_ne_nil {e : AExpr} {ts : List Tok} (h : TSpellT e ts) : ts ≠ [] := by
  cases h with
  | fac e ts hf =>
    rcases tspellF_shape hf with ⟨q, rfl⟩ | ⟨inner, rfl⟩ <;> simp
  | bin o l r ts1 ts2 hop h1 h2 => simp

theorem tspellE_ne_nil {e : AExpr} {ts : List Tok} (h : TSpellE e ts) : ts ≠ [] := by
  cases h with
  | term e ts htm => exact tspellT_ne_nil htm
  | bin o l r ts1 ts2 hop h1 h2 => simp

/-- **Claim C1** (amended).  Quantifying over the spec's conventional
expression grammar `SpellE`: for every arithmetic expression `e` over
`+ - * /` with decimal literals and every spelling `s` of `e` — free blank
padding around factors, redundant parentheses, conventional precedence and
left-to-right associativity — if the conventional value of `e` is defined
(no division by zero), then every character of `s` is whitelisted and
`evaluate_formula` returns exactly that value.  The division-by-zero
proviso cannot be dropped: see the counterexample. -/
theorem claim_C1_amended (e : AExpr) (s : List Char) (q : ℚ)
    (hs : SpellE e s) (hv : AExpr.value e = some q) :
    (∀ c ∈ s, allowedChar c = true) ∧ evaluate_formula s = Except.ok q := by
  have hchars := (spell_chars_all s.length).2.2 e s hs le_rfl
  have hallowed : ∀ c ∈ s, allowedChar c = true :=
    fun c hc => allowed_of_charOK (hchars c hc)
  obtain ⟨ts, hts, hlex⟩ := (spell_lex_all s.length).2.2 e s hs le_rfl
  have htok : tokenize s = some ts := by
    have h0 := hlex 0 [] (by intro c hc; simp at hc)
    rw [List.append_nil] at h0
    show tokenizeD 0 s = some ts
    rw [h0]
    simp [tokenizeD, tokenizeF]
  have hW1 : ∀ c ∈ s.takeWhile isPySpace, isBlank c = true := by
    intro c hc
    obtain ⟨hm, hp⟩ := takeWhile_mem_spec isPySpace s c hc
    exact blank_of_space_charOK (hchars c hm) hp
  have hW2 : ∀ c ∈ ((s.dropWhile isPySpace).reverse.takeWhile isPySpace).reverse,
      isBlank c = true := by
    intro c hc
    rw [List.mem_reverse] at hc
    obtain ⟨hm, hp⟩ := takeWhile_mem_spec isPySpace (s.dropWhile isPySpace).reverse c hc
    rw [List.mem_reverse] at hm
    exact blank_of_space_charOK (hchars c (dropWhile_mem isPySpace s c hm)) hp
  have hmid : ∀ c ∈ pyStrip s, c ∈ s := by
    intro c hc
    have hc' : c ∈ ((s.dropWhile isPySpace).reverse.dropWhile isPySpace).reverse := hc
    rw [List.mem_reverse] at hc'
    have hm := dropWhile_mem isPySpace (s.dropWhile isPySpace).reverse c hc'
    rw [List.mem_reverse] at hm
    exact dropWhile_mem isPySpace s c hm
  have hsplit : tokenizeD 0 s = tokenizeD 0 (pyStrip s) := by
    conv_lhs => rw [strip_decomp s]
    rw [tokenizeD_leading_blanks _ hW1,
      tokenizeD_append_blanks (pyStrip s).length (pyStrip s) _ 0 le_rfl hW2]
  have htok2 : tokenize (pyStrip s) = some ts := by
    show tokenizeD 0 (pyStrip s) = some ts
    rw [← hsplit]
    exact htok
  have hne : pyStrip s ≠ [] := by
    intro h0
    rw [h0] at htok2
    have hts0 : ts = [] := by
      have hx := htok2
      simp [tokenize, tokenizeD, tokenizeF] at hx
      exact hx
    exact tspellE_ne_nil hts hts0
  have hwl : formula_whitelist_ok s = true := by
    show (!(pyStrip s).isEmpty && (pyStrip s).all allowedChar) = true
    simp only [Bool.and_eq_true, Bool.not_eq_true', List.all_eq_true]
    constructor
    · rcases hE : (pyStrip s).isEmpty with - | -
      · rfl
      · exact absurd (List.isEmpty_iff.mp hE) hne
    · intro c hc
      exact allowed_of_charOK (hchars c (hmid c hc))
  have hparse : pyParse ts = some (astOf e) := by
    have hp := (tspell_parse_all ts.length).2.2 e ts hts le_rfl [] (8 * ts.length + 8)
      (by omega) (by intro tk htk; simp at htk)
    rw [List.append_nil] at hp
    unfold pyParse
    rw [hp]
  refine ⟨hallowed, ?_⟩
  unfold evaluate_formula
  rw [if_pos hwl]
  unfold pyEval
  rw [htok2]
  dsimp only
  rw [hparse]
  dsimp only
  rw [astOf_val e q hv]

/-- Claim C1, counterexample to the unamended claim: `"1/0"` is a
conventional spelling (a `SpellE` derivation) of the expression `1 / 0`,
and every one of its characters is whitelisted, yet `evaluate_formula`
returns the wrapped `ZeroDivisionError` instead of a value — so syntactic
validity over the whitelist does not suffice for successful evaluation. -/
theorem claim_C1_counterexample :
    SpellE (AExpr.bin AOp.div (AExpr.lit 1) (AExpr.lit 0)) ("1/0".data) ∧
    (∀ c ∈ "1/0".data, allowedChar c = true) ∧
    evaluate_formula ("1/0".data) =
      Except.error (FormulaError.evalErr PyErr.zeroDiv) := by
  refine ⟨?_, ?_, ?_⟩
  · have hd1 : DecLit ['1'] 1 := by
      have h := DecLit.int ['1'] (by simp) (by decide)
        (by intro hh; exact absurd hh (by decide))
      have hv : ((digitsToNat ['1'] : ℕ) : ℚ) = 1 := by decide
      rw [hv] at h
      exact h
    have hd0 : DecLit ['0'] 0 := by
      have h := DecLit.int ['0'] (by simp) (by decide)
        (by intro hh c hc; simpa using List.mem_singleton.mp hc)
      have hv : ((digitsToNat ['0'] : ℕ) : ℚ) = 0 := by decide
      rw [hv] at h
      exact h
    have hsd : "1/0".data = ['1', '/', '0'] := rfl
    rw [hsd]
    have ht : SpellT (AExpr.bin AOp.div (AExpr.lit 1) (AExpr.lit 0))
        (['1'] ++ opChar4 AOp.div :: ['0']) :=
      SpellT.bin AOp.div _ _ _ _ rfl
        (SpellT.fac _ _ (SpellF.lit _ _ hd1)) (SpellF.lit _ _ hd0)
    exact SpellE.term _ _ ht
  · decide
  · norm_num +decide [evaluate_formula, formula_whitelist_ok, pyStrip, rstrip, pyEval,
      tokenize, tokenizeD, tokenizeF, isBlank, lexNum, digitsToNat, isPySpace, isPyDigit,
      allowedChar, isOpChar, pyParse, parseF, PExpr.val, List.takeWhile, List.dropWhile,
      Bind.bind, Except.instMonad, Except.bind, Except.pure, pure]

/-- Witness for the amended C1 at the spec's own example: `"10.5 / 2"` is
a spelling of the expression `10.5 / 2`, whose conventional value is
`21/4 = 5.25`; the theorem yields the whitelist check and the evaluation
result. -/
theorem claim_C1_amended_witness :
    (∀ c ∈ "10.5 / 2".data, allowedChar c = true) ∧
    evaluate_formula ("10.5 / 2".data) = Except.ok (21 / 4) :=
  claim_C1_amended (AExpr.bin AOp.div (AExpr.lit (21 / 2)) (AExpr.lit 2))
    ("10.5 / 2".data) (21 / 4)
    (by
      have hsd : "10.5 / 2".data = ['1', '0', '.', '5', ' ', '/', ' ', '2'] := rfl
      rw [hsd]
      have hd1 : DecLit ['1', '0', '.', '5'] (21 / 2) := by
        have h := DecLit.dec ['1', '0'] ['5'] (Or.inl (by simp)) (by decide) (by decide)
        have ha : digitsToNat ['1', '0'] = 10 := by decide
        have hb : digitsToNat ['5'] = 5 := by decide
        have hv : ((digitsToNat ['1', '0'] : ℕ) : ℚ)
            + ((digitsToNat ['5'] : ℕ) : ℚ) / (10 : ℚ) ^ (['5'] : List Char).length
            = 21 / 2 := by
          rw [ha, hb]
          norm_num
        rw [hv] at h
        exact h
      have hd2 : DecLit ['2'] 2 := by
        have h := DecLit.int ['2'] (by simp) (by decide)
          (by intro hh; exact absurd hh (by decide))
        have hv : ((digitsToNat ['2'] : ℕ) : ℚ) = 2 := by decide
        rw [hv] at h
        exact h
      have hf1p : SpellF (AExpr.lit (21 / 2)) (['1', '0', '.', '5'] ++ [' ']) :=
        SpellF.padR _ ' ' _ (by decide) (SpellF.lit _ _ hd1)
      have hf2p : SpellF (AExpr.lit 2) (' ' :: ['2']) :=
        SpellF.padL _ ' ' _ (by decide) (SpellF.lit _ _ hd2)
      have ht : SpellT (AExpr.bin AOp.div (AExpr.lit (21 / 2)) (AExpr.lit 2))
          ((['1', '0', '.', '5'] ++ [' ']) ++ opChar4 AOp.div :: (' ' :: ['2'])) :=
        SpellT.bin AOp.div _ _ _ _ rfl (SpellT.fac _ _ hf1p) hf2p
      exact SpellE.term _ _ ht)
    (by norm_num [AExpr.value, Bind.bind, Option.bind])

end AgentsDemo


